import Mathlib

/-!
# Cafe-Billing: the order-form script `static/js/app.js`

A shallow embedding of the `DOMContentLoaded` handler of `static/js/app.js`:
the quantity normalisation and summation of `recalc`, the frame callback of
`animateTotal`, and the pieces of the JavaScript platform they call
(`parseInt`, binary64 arithmetic, `Number.prototype.toFixed`).

Conventions.
* A JavaScript string is a `String`; the string algorithms work on its list of
  characters.
* `parseInt(s, 10)` is integer valued.  The embedding keeps the mathematical
  integer it reads (`none` for `NaN`); lines 32-35 only compare it with `0` and
  `99`, and every integer in `[0, 99]` is a binary64 number, so the quantity
  is the same as on the rounded number (`enforceQtyNum_eq`).
* Every other JavaScript number is a `Num`: `NaN`, an infinity, or a finite
  binary64 value given by the rational it denotes.  The sign of a zero is not
  tracked: the script never divides by a zero and `toFixed`, `===`, `<` and
  `||` do not distinguish the two zeros.
-/

namespace CafeBilling

/-! ## Strings and `parseInt` -/

/-- White space and line terminators stripped by `parseInt` before it reads
(`StrWhiteSpaceChar` of ECMAScript). -/
def isStrWhiteSpace (c : Char) : Bool :=
  let n := c.toNat
  n = 9 || n = 10 || n = 11 || n = 12 || n = 13 || n = 32 || n = 160 || n = 0x1680 ||
  (0x2000 ≤ n && n ≤ 0x200A) || n = 0x2028 || n = 0x2029 || n = 0x202F || n = 0x205F ||
  n = 0x3000 || n = 0xFEFF

/-- A radix-10 digit. -/
def isDigit10 (c : Char) : Bool := decide (48 ≤ c.toNat) && decide (c.toNat ≤ 57)

/-- Value of a radix-10 digit. -/
def digitVal (c : Char) : Nat := c.toNat - 48

/-- Mathematical integer denoted by a sequence of radix-10 digits. -/
def mathInt (ds : List Char) : Nat := ds.foldl (fun acc c => 10 * acc + digitVal c) 0

/-- Removes one leading `+` or `-` (step 4 of `parseInt`). -/
def dropSign : List Char → List Char
  | [] => []
  | c :: r => if c = '+' ∨ c = '-' then r else c :: r

/-- Whether the trimmed string starts with `-` (step 3 of `parseInt`). -/
def startsWithMinus : List Char → Bool
  | [] => false
  | c :: _ => decide (c = '-')

/-- The call `parseInt(s, 10)`: leading white space is dropped, then an optional
sign, then the longest run of decimal digits is read; `none` is `NaN` (no digit
was found).  `-0` and `+0` are both `some 0`. -/
def parseInt10 (s : List Char) : Option Int :=
  let t := s.dropWhile isStrWhiteSpace
  let z := (dropSign t).takeWhile isDigit10
  if z = [] then none
  else some (if startsWithMinus t then -(mathInt z : Int) else (mathInt z : Int))

/-- Lines 32-34 of `recalc`: `parseInt(inp.value, 10) || 0` (both `NaN` and `0`
are falsy), then the two clamps. -/
def enforceQty (s : List Char) : Int :=
  let qty := (parseInt10 s).getD 0
  let qty := if qty < 0 then 0 else qty
  let qty := if qty > 99 then 99 else qty
  qty

/-- The string `inp.value = qty` stores: `Number::toString` of an integer-valued
number of magnitude below `10^21` (here always one of `0 .. 99`) is its decimal
numeral. -/
def intToString (n : Int) : String :=
  if n < 0 then "-" ++ Nat.repr n.natAbs else Nat.repr n.natAbs

/-- Line 35 of `recalc`: the value left in the field. -/
def enforcedField (s : String) : String := intToString (enforceQty s.data)

/-! ## Binary64 numbers -/

/-- A JavaScript number: `NaN`, `+Infinity` (`inf false`), `-Infinity`
(`inf true`), or a finite value. -/
inductive Num where
  | nan
  | inf (neg : Bool)
  | fin (q : ℚ)
  deriving DecidableEq

/-- Nearest integer, ties to the even one. -/
def roundHalfEven (x : ℚ) : ℤ :=
  let f := ⌊x⌋
  let r := x - f
  if r < 1 / 2 then f else if 1 / 2 < r then f + 1 else if f % 2 = 0 then f else f + 1

/-- Exponent of the unit in the last place of the binary64 numbers around `q`:
53 significant bits, least normal exponent `-1022` (below it the spacing of
the subnormal numbers). -/
def ulpExp (q : ℚ) : ℤ := max (Int.log 2 |q|) (-1022) - 52

/-- Rounding of a real result to binary64, to nearest with ties to even;
results of magnitude `2^1024` or more are infinite. -/
def round64 (q : ℚ) : Num :=
  let u : ℚ := 2 ^ ulpExp q
  let r : ℚ := roundHalfEven (q / u) * u
  if (2 : ℚ) ^ (1024 : ℕ) ≤ |r| then Num.inf (decide (q < 0)) else Num.fin r

namespace Num

/-- A `Num` that is a binary64 value: a finite one is fixed by rounding. -/
def isDouble : Num → Prop
  | fin q => round64 q = fin q
  | _ => True

instance (x : Num) : Decidable x.isDouble := by
  cases x <;> unfold isDouble <;> infer_instance

/-- Unary minus. -/
def neg : Num → Num
  | nan => nan
  | inf s => inf (!s)
  | fin q => fin (-q)

/-- The operator `+`. -/
def add : Num → Num → Num
  | nan, _ => nan
  | _, nan => nan
  | inf a, inf b => if a = b then inf a else nan
  | inf a, fin _ => inf a
  | fin _, inf b => inf b
  | fin a, fin b => round64 (a + b)

/-- The operator `-`. -/
def sub (x y : Num) : Num := x.add y.neg

/-- The operator `*`. -/
def mul : Num → Num → Num
  | nan, _ => nan
  | _, nan => nan
  | inf a, inf b => inf (xor a b)
  | inf a, fin q => if q = 0 then nan else inf (xor a (decide (q < 0)))
  | fin q, inf b => if q = 0 then nan else inf (xor (decide (q < 0)) b)
  | fin a, fin b => round64 (a * b)

/-- The operator `/` with a finite non-zero divisor `d` (the script divides
only by `duration`). -/
def divBy (x : Num) (d : ℚ) : Num :=
  match x with
  | nan => nan
  | inf a => inf (xor a (decide (d < 0)))
  | fin q => round64 (q / d)

/-- The operator `<`; comparisons with `NaN` are false. -/
def lt : Num → Num → Bool
  | fin a, fin b => decide (a < b)
  | inf true, inf false => true
  | inf true, fin _ => true
  | fin _, inf false => true
  | _, _ => false

/-- The call `Math.min(x, y)`. -/
def min (x y : Num) : Num :=
  match x, y with
  | nan, _ => nan
  | _, nan => nan
  | _, _ => if y.lt x then y else x

/-- The test `x === 0`. -/
def isZero (x : Num) : Bool := decide (x = fin 0)

/-- The relation `0 ≤ x` on numbers (false for `NaN`). -/
def nonneg : Num → Prop
  | nan => False
  | inf s => s = false
  | fin q => 0 ≤ q

end Num

/-! ## `Number.prototype.toFixed` -/

/-- Pairs `(n, s)` with `s` of `k` digits and `s · 10^(n-k)` rounding to `x`,
for `n` one of `d`, `d + 1` (step 5 of `Number::toString`, `x ≥ 10^21`). -/
def digitCandidates (x : ℚ) (d k : Nat) : List (Nat × Nat) :=
  [d, d + 1].flatMap fun (n : Nat) =>
    [⌊x / 10 ^ (n - k)⌋₊, ⌊x / 10 ^ (n - k)⌋₊ + 1].filterMap fun (s : Nat) =>
      if 10 ^ (k - 1) ≤ s ∧ s < 10 ^ k ∧ round64 ((s : ℚ) * 10 ^ (n - k)) = Num.fin x
      then some (n, s) else none

/-- Among the candidates the one closest in value to `x`. -/
def closestCandidate (x : ℚ) (k : Nat) : List (Nat × Nat) → Option (Nat × Nat)
  | [] => none
  | c :: cs =>
    match closestCandidate x k cs with
    | none => some c
    | some c' =>
      if |(c.2 : ℚ) * 10 ^ (c.1 - k) - x| ≤ |(c'.2 : ℚ) * 10 ^ (c'.1 - k) - x| then some c
      else some c'

/-- The triple `(n, k, s)` of `Number::toString` with the least number of
digits `k` among those tried. -/
def findDigits (x : ℚ) (d : Nat) : List Nat → Option (Nat × Nat × Nat)
  | [] => none
  | k :: ks =>
    match closestCandidate x k (digitCandidates x d k) with
    | some (n, s) => some (n, k, s)
    | none => findDigits x d ks

/-- `Number::toString` of a finite binary64 value `x ≥ 10^21`: the shortest
digit string that rounds to `x`, in exponential form (17 digits always
suffice). -/
def expString (x : ℚ) : String :=
  match findDigits x (Nat.repr ⌊x⌋₊).length (List.range' 1 17) with
  | none => Nat.repr ⌊x⌋₊
  | some (n, k, s) =>
    let ds := (Nat.repr s).data
    if k = 1 then String.mk ds ++ "e+" ++ Nat.repr (n - 1)
    else String.mk (ds.take 1) ++ "." ++ String.mk (ds.drop 1) ++ "e+" ++ Nat.repr (n - 1)

/-- Steps 9-10 of `toFixed` with two fraction digits: the digits of `n`, padded
on the left with zeros to three characters, with a point before the last two. -/
def fixedDigits (n : Nat) : String :=
  let m := (Nat.repr n).data
  let m := if m.length ≤ 2 then List.replicate (3 - m.length) '0' ++ m else m
  String.mk (m.take (m.length - 2)) ++ "." ++ String.mk (m.drop (m.length - 2))

/-- The call `value.toFixed(2)`. -/
def toFixed2 : Num → String
  | Num.nan => "NaN"
  | Num.inf false => "Infinity"
  | Num.inf true => "-Infinity"
  | Num.fin q =>
    let s := if q < 0 then "-" else ""
    let x := |q|
    if 10 ^ 21 ≤ x then s ++ expString x
    else s ++ fixedDigits ⌊x * 100 + 1 / 2⌋₊

/-! ## The page and the handler -/

/-- A quantity input: the number `parseFloat` reads from the `data-price`
attribute of its enclosing `.menu-item`, and the string `inp.value`. -/
structure Item where
  price : Num
  value : String
  deriving DecidableEq

/-- The closure `animate` created by one call of `animateTotal`. -/
structure Anim where
  start : Num
  target : Num
  startTime : Num
  deriving DecidableEq

/-- The state the handler works on.  `totalEl` is the `textContent` of
`#totalDisplay` (`none`: no such element); `form` says whether a form exists;
`submitBtn` is the `disabled` flag of the submit button of the form (`none`: no
form, or no such button in it); `frames` are the callbacks handed to
`requestAnimationFrame` and not yet run, oldest first. -/
structure Page where
  totalEl : Option String
  inputs : List Item
  form : Bool
  submitBtn : Option Bool
  lastTotal : Num
  frames : List Anim
  deriving DecidableEq

/-- An exception thrown by the script. -/
inductive JSError where
  | typeError
  deriving DecidableEq

/-- The constant `duration` of `animateTotal`. -/
def duration : ℚ := 250

/-- The call `animateTotal(newTotal)` at time `now = performance.now()` (lines
10-13 and 25): the closure is created and handed to `requestAnimationFrame`. -/
def animateTotal (newTotal now : Num) (pg : Page) : Page :=
  { pg with frames := pg.frames ++ [{ start := pg.lastTotal, target := newTotal, startTime := now }] }

/-- The value of `progress` on line 16. -/
def progressAt (a : Anim) (time : Num) : Num :=
  Num.min ((time.sub a.startTime).divBy duration) (Num.fin 1)

/-- The value of `value` on line 17. -/
def valueAt (a : Anim) (time : Num) : Num :=
  a.start.add ((a.target.sub a.start).mul (progressAt a time))

/-- The frame callback `animate(time)` of the closure `a` (lines 15-24).  The
assignment to `totalEl.textContent` throws a `TypeError` when `totalEl` is
`null`. -/
def animate (a : Anim) (time : Num) (pg : Page) : Except JSError Page :=
  let progress := progressAt a time
  let value := valueAt a time
  match pg.totalEl with
  | none => Except.error JSError.typeError
  | some _ =>
    let pg := { pg with totalEl := some ("$" ++ toFixed2 value) }
    if progress.lt (Num.fin 1) then
      Except.ok { pg with frames := pg.frames ++ [a] }
    else
      Except.ok { pg with lastTotal := a.target }

/-- The browser runs the oldest pending frame callback at time `time`. -/
def runFrame (time : Num) (pg : Page) : Except JSError Page :=
  match pg.frames with
  | [] => Except.ok pg
  | a :: rest => animate a time { pg with frames := rest }

/-- One turn of the `forEach` callback of `recalc` (lines 32-37): the input
with its corrected value, and the new `sum`. -/
def recalcItem (sum : Num) (it : Item) : Item × Num :=
  let qty := enforceQty it.value.data
  ({ it with value := intToString qty }, sum.add (it.price.mul (Num.fin qty)))

/-- The `forEach` loop of `recalc` (lines 31-38) from the running `sum`. -/
def recalcLoop : List Item → Num → List Item × Num
  | [], sum => ([], sum)
  | it :: rest, sum =>
    let r := recalcItem sum it
    let rs := recalcLoop rest r.2
    (r.1 :: rs.1, rs.2)

/-- The total `recalc` computes (the final `sum`). -/
def recalcSum (items : List Item) : Num := (recalcLoop items (Num.fin 0)).2

/-- The function `recalc` (lines 29-43), called at time `now`. -/
def recalc (now : Num) (pg : Page) : Page :=
  let r := recalcLoop pg.inputs (Num.fin 0)
  let pg := animateTotal r.2 now { pg with inputs := r.1 }
  match pg.submitBtn with
  | none => pg
  | some _ => { pg with submitBtn := some r.2.isZero }

/-- The `DOMContentLoaded` handler (lines 2-6 and 55-70) on a document with the
given elements: `lastTotal` starts at `0`, the listeners are attached, and
`recalc` runs once.  A submit button is looked up only inside a form. -/
def init (totalEl : Option String) (inputs : List Item) (form : Bool)
    (formSubmit : Option Bool) (now : Num) : Page :=
  recalc now
    { totalEl := totalEl, inputs := inputs, form := form,
      submitBtn := if form then formSubmit else none,
      lastTotal := Num.fin 0, frames := [] }



/-! ## The number a quantity field denotes -/

/-- Exponent part of a valid floating-point number: nothing, or `e`/`E`, an
optional sign and one or more digits to the end of the string. -/
def htmlExponent : List Char → Option Int
  | [] => some 0
  | c :: r =>
    if c = 'e' ∨ c = 'E' then
      if dropSign r ≠ [] ∧ (dropSign r).all isDigit10 = true then
        some (if startsWithMinus r then -(mathInt (dropSign r) : Int) else (mathInt (dropSign r) : Int))
      else none
    else none

/-- Whether the rest of the string starts with a point. -/
def startsWithDot : List Char → Bool
  | [] => false
  | c :: _ => decide (c = '.')

/-- The digits after a leading point (none without a point). -/
def fractionDigits : List Char → List Char
  | [] => []
  | c :: r => if c = '.' then r.takeWhile isDigit10 else []

/-- What follows the fraction part. -/
def afterFraction : List Char → List Char
  | [] => []
  | c :: r => if c = '.' then r.dropWhile isDigit10 else c :: r

/-- The parts of a valid floating-point number (an optional `-`, then digits,
or a point and digits, or both, then an optional exponent): whether it is
negated, the integer digits, the fraction digits and the exponent; `none` for
any other string. -/
def htmlParts (s : List Char) : Option (Bool × List Char × List Char × Int) :=
  let r0 := if startsWithMinus s then s.drop 1 else s
  let ip := r0.takeWhile isDigit10
  let r1 := r0.dropWhile isDigit10
  let fp := fractionDigits r1
  if (startsWithDot r1 && fp.isEmpty) || (!startsWithDot r1 && ip.isEmpty) then none
  else
    match htmlExponent (afterFraction r1) with
    | none => none
    | some e => some (startsWithMinus s, ip, fp, e)

/-- The number with the given parts. -/
def partsValue (p : Bool × List Char × List Char × Int) : ℚ :=
  (if p.1 then -1 else 1) *
    ((mathInt p.2.1 : ℚ) + (mathInt p.2.2.1 : ℚ) / 10 ^ p.2.2.1.length) * 10 ^ p.2.2.2

/-- The number a string denotes as the value of an `input[type=number]`: the
value of a valid floating-point number, `none` for any other string.  This is
the reading of "a string denoting a value" used to state the normalisation
cases; the script itself reads the field with `parseInt`. -/
def htmlNumber (s : List Char) : Option ℚ := (htmlParts s).map partsValue

/-! ## The total as the specification words it -/

/-- Line items with finite prices, as the inputs `recalc` works on: the price
and the string in the quantity field. -/
def toItems (items : List (ℚ × String)) : List Item :=
  items.map fun it => { price := Num.fin it.1, value := it.2 }

/-- The exact sum over the line items of price × clamped quantity, in exact
rational arithmetic (the total as the specification describes it). -/
def exactSum (items : List (ℚ × String)) : ℚ :=
  (items.map fun it => it.1 * (enforceQty it.2.data : ℚ)).sum

/-- No rounding happens while the items are summed from `acc`: every product
price × quantity and every partial sum is a binary64 number. -/
def SumsExactly : ℚ → List (ℚ × String) → Prop
  | _, [] => True
  | acc, it :: rest =>
    round64 (it.1 * (enforceQty it.2.data : ℚ)) = Num.fin (it.1 * (enforceQty it.2.data : ℚ)) ∧
    round64 (acc + it.1 * (enforceQty it.2.data : ℚ)) =
      Num.fin (acc + it.1 * (enforceQty it.2.data : ℚ)) ∧
    SumsExactly (acc + it.1 * (enforceQty it.2.data : ℚ)) rest

/-! ## The quantity as a JavaScript number -/

/-- The number `parseInt(s, 10)` returns: `NaN`, or the integer read, rounded
to binary64 (an infinity for a numeral of more than 308 digits). -/
def parseIntNum (s : List Char) : Num :=
  match parseInt10 s with
  | none => Num.nan
  | some n => round64 n

/-- Lines 32-34 of `recalc` on JavaScript numbers: `parseInt(…) || 0` replaces
`NaN` and `0` by `0`, then the two comparisons clamp.  `enforceQty` computes
the same quantity on integers (`enforceQtyNum_eq`). -/
def enforceQtyNum (s : List Char) : Num :=
  let r := parseIntNum s
  let qty := if r = Num.nan ∨ r = Num.fin 0 then Num.fin 0 else r
  let qty := if qty.lt (Num.fin 0) then Num.fin 0 else qty
  let qty := if (Num.fin 99).lt qty then Num.fin 99 else qty
  qty

/-! ## Runs of the page -/

/-- What happens on the page once the handler has run: the user edits the
field of index `i` (its `value` becomes the given string), `recalc` is called
at time `now` (by an `input` event or by the timer of the `reset` listener), or
the browser runs the oldest pending frame callback with timestamp `time`. -/
inductive Event where
  | edit (i : Nat) (value : String)
  | recalc (now : Num)
  | frame (time : Num)
  deriving DecidableEq

/-- The inputs after the user changed the value of the field of index `i`. -/
def setValue : List Item → Nat → String → List Item
  | [], _, _ => []
  | it :: rest, 0, v => { it with value := v } :: rest
  | it :: rest, i + 1, v => it :: setValue rest i v

/-- The effect of one event on the page. -/
def step (e : Event) (pg : Page) : Except JSError Page :=
  match e with
  | Event.edit i v => Except.ok { pg with inputs := setValue pg.inputs i v }
  | Event.recalc now => Except.ok (recalc now pg)
  | Event.frame time => runFrame time pg

/-- The effect of a sequence of events, stopping at the first exception. -/
def run : List Event → Page → Except JSError Page
  | [], pg => Except.ok pg
  | e :: es, pg =>
    match step e pg with
    | Except.ok pg' => run es pg'
    | Except.error err => Except.error err

/-- The animation an event completes, if any, given as its target: the event is
a frame, a callback is pending, and the fraction of the oldest pending one is
not below `1`. -/
def completedBy (e : Event) (pg : Page) : Option Num :=
  match e, pg.frames with
  | Event.frame time, a :: _ =>
    if (progressAt a time).lt (Num.fin 1) then none else some a.target
  | _, _ => none

/-- The target of the animation that completed last while the events ran from
the page `pg`, and `d` if none completed (the settled total as the
specification describes it; it does not read `lastTotal`). -/
def lastCompleted : List Event → Page → Num → Num
  | [], _, d => d
  | e :: es, pg, d =>
    match step e pg with
    | Except.ok pg' => lastCompleted es pg' ((completedBy e pg).getD d)
    | Except.error _ => d

/-! ## Rounding lemmas -/

theorem roundHalfEven_intCast (n : ℤ) : roundHalfEven (n : ℚ) = n := by
  unfold roundHalfEven
  simp

theorem floor_le_roundHalfEven (x : ℚ) : ⌊x⌋ ≤ roundHalfEven x := by
  unfold roundHalfEven
  simp only
  split_ifs <;> omega

theorem roundHalfEven_le_floor_succ (x : ℚ) : roundHalfEven x ≤ ⌊x⌋ + 1 := by
  unfold roundHalfEven
  simp only
  split_ifs <;> omega

theorem le_roundHalfEven {x : ℚ} {m : ℤ} (h : (m : ℚ) ≤ x) : m ≤ roundHalfEven x :=
  le_trans (Int.le_floor.2 h) (floor_le_roundHalfEven x)

theorem roundHalfEven_le {x : ℚ} {m : ℤ} (h : x ≤ (m : ℚ)) : roundHalfEven x ≤ m := by
  rcases eq_or_lt_of_le h with h | h
  · rw [h, roundHalfEven_intCast]
  · have : ⌊x⌋ < m := Int.floor_lt.2 h
    have := roundHalfEven_le_floor_succ x
    omega

theorem log2_lt {q : ℚ} {k : ℤ} (hq : 0 < q) (h : q < (2 : ℚ) ^ k) : Int.log 2 q < k :=
  (Int.lt_zpow_iff_log_lt (by norm_num) hq).1 (by exact_mod_cast h)

theorem le_log2 {q : ℚ} {k : ℤ} (hq : 0 < q) (h : (2 : ℚ) ^ k ≤ q) : k ≤ Int.log 2 q :=
  (Int.zpow_le_iff_le_log (by norm_num) hq).1 (by exact_mod_cast h)

theorem zpow_log2_le {q : ℚ} (hq : 0 < q) : (2 : ℚ) ^ Int.log 2 q ≤ q := by
  have := Int.zpow_log_le_self (b := 2) (r := q) (by norm_num) hq
  exact_mod_cast this

theorem lt_zpow_log2_succ (q : ℚ) : q < (2 : ℚ) ^ (Int.log 2 q + 1) := by
  have := Int.lt_zpow_succ_log_self (b := 2) (by norm_num) q
  exact_mod_cast this

/-- A dyadic rational with a mantissa below `2^53` and an exponent in range is a
binary64 number. -/
theorem round64_zero : round64 0 = Num.fin 0 := by
  unfold round64
  simp [roundHalfEven]

/-- A dyadic rational with a mantissa below `2^53` and an exponent in range is a
binary64 number. -/
theorem round64_dyadic (m k : ℤ) (hm : |m| < 2 ^ 53) (hk : -1074 ≤ k)
    (hfin : |(m : ℚ) * 2 ^ k| < 2 ^ (1024 : ℕ)) :
    round64 ((m : ℚ) * 2 ^ k) = Num.fin ((m : ℚ) * 2 ^ k) := by
  have h2 : (0 : ℚ) < 2 := by norm_num
  rcases eq_or_ne m 0 with h0 | h0
  · subst h0
    simp [round64_zero]
  have hu : ulpExp ((m : ℚ) * 2 ^ k) ≤ k := by
    unfold ulpExp
    have hpos : 0 < |(m : ℚ) * 2 ^ k| :=
      abs_pos.2 (mul_ne_zero (by exact_mod_cast h0) (by positivity))
    have hlt : |(m : ℚ) * 2 ^ k| < (2 : ℚ) ^ (53 + k) := by
      rw [abs_mul, abs_of_pos (zpow_pos h2 k), zpow_add₀ (by norm_num)]
      apply mul_lt_mul_of_pos_right _ (zpow_pos h2 k)
      have : ((|m| : ℤ) : ℚ) < ((2 ^ 53 : ℤ) : ℚ) := by exact_mod_cast hm
      push_cast at this
      exact_mod_cast this
    have := log2_lt hpos hlt
    omega
  obtain ⟨j, hj⟩ : ∃ j : ℕ, k = ulpExp ((m : ℚ) * 2 ^ k) + j :=
    ⟨(k - ulpExp ((m : ℚ) * 2 ^ k)).toNat, by omega⟩
  have hne : (2 : ℚ) ^ ulpExp ((m : ℚ) * 2 ^ k) ≠ 0 := by positivity
  have hx : (m : ℚ) * 2 ^ k / 2 ^ ulpExp ((m : ℚ) * 2 ^ k) = ((m * 2 ^ j : ℤ) : ℚ) := by
    rw [div_eq_iff hne]
    conv_lhs => rw [hj]
    rw [zpow_add₀ (by norm_num), zpow_natCast]
    push_cast
    ring
  have hr : ((roundHalfEven ((m : ℚ) * 2 ^ k / 2 ^ ulpExp ((m : ℚ) * 2 ^ k)) : ℤ) : ℚ) *
      2 ^ ulpExp ((m : ℚ) * 2 ^ k) = (m : ℚ) * 2 ^ k := by
    rw [hx, roundHalfEven_intCast, ← hx]
    field_simp
  unfold round64
  simp only [hr]
  rw [if_neg (not_le.2 hfin)]

theorem round64_intCast (n : ℤ) (hn : |n| < 2 ^ 53) : round64 (n : ℚ) = Num.fin n := by
  have := round64_dyadic n 0 hn (by norm_num) (by
    simp only [zpow_zero, mul_one]
    have : ((|n| : ℤ) : ℚ) < ((2 ^ 53 : ℤ) : ℚ) := by exact_mod_cast hn
    have h2 : (((2 : ℤ) ^ 53 : ℤ) : ℚ) ≤ 2 ^ (1024 : ℕ) := by norm_num
    push_cast at this
    linarith)
  simpa using this

theorem round64_cases (q : ℚ) :
    round64 q = Num.inf (decide (q < 0)) ∨
      (round64 q = Num.fin ((roundHalfEven (q / 2 ^ ulpExp q) : ℚ) * 2 ^ ulpExp q) ∧
        |(roundHalfEven (q / 2 ^ ulpExp q) : ℚ) * 2 ^ ulpExp q| < 2 ^ (1024 : ℕ)) := by
  unfold round64
  simp only
  split_ifs with h
  · exact Or.inl rfl
  · exact Or.inr ⟨rfl, not_le.1 h⟩

theorem round64_nonneg {q : ℚ} (hq : 0 ≤ q) : (round64 q).nonneg := by
  rcases round64_cases q with h | ⟨h, -⟩
  · rw [h]
    simp [Num.nonneg, not_lt.2 hq]
  · rw [h]
    have hn : (0 : ℤ) ≤ roundHalfEven (q / 2 ^ ulpExp q) :=
      le_roundHalfEven (by simpa using div_nonneg hq (by positivity))
    have : (0 : ℚ) ≤ (roundHalfEven (q / 2 ^ ulpExp q) : ℚ) := by exact_mod_cast hn
    exact mul_nonneg this (by positivity)

theorem ulpExp_ge (q : ℚ) : -1074 ≤ ulpExp q := by
  unfold ulpExp
  omega

theorem abs_lt_zpow_ulpExp (q : ℚ) : |q| < (2 : ℚ) ^ (ulpExp q + 53) := by
  have h := lt_zpow_log2_succ |q|
  refine lt_of_lt_of_le h (zpow_le_zpow_right₀ (by norm_num) ?_)
  unfold ulpExp
  omega

/-- Every result of rounding is a binary64 number: rounding is idempotent. -/
theorem round64_isDouble (q : ℚ) : (round64 q).isDouble := by
  rcases round64_cases q with h | ⟨h, hfin⟩
  · rw [h]
    trivial
  rw [h]
  show round64 _ = Num.fin _
  set u := ulpExp q with hu
  set n := roundHalfEven (q / 2 ^ u) with hn
  have hpow : (0 : ℚ) < 2 ^ u := by positivity
  have hx : |q / 2 ^ u| < 2 ^ (53 : ℕ) := by
    rw [abs_div, abs_of_pos hpow, div_lt_iff₀ hpow]
    have := abs_lt_zpow_ulpExp q
    rw [zpow_add₀ (by norm_num)] at this
    rw [mul_comm]
    exact_mod_cast this
  rw [abs_lt] at hx
  have hn1 : n ≤ 2 ^ 53 := roundHalfEven_le (by push_cast; linarith [hx.2])
  have hn2 : -(2 ^ 53) ≤ n := le_roundHalfEven (by push_cast; linarith [hx.1])
  have huge := ulpExp_ge q
  by_cases hlt : |n| < 2 ^ 53
  · exact round64_dyadic n u hlt huge hfin
  · have hcase : n = 2 ^ 53 ∨ n = -(2 ^ 53) := by
      rw [abs_lt] at hlt
      omega
    have key : ∀ m : ℤ, n = 2 * m → |m| < 2 ^ 53 →
        round64 ((n : ℚ) * 2 ^ u) = Num.fin ((n : ℚ) * 2 ^ u) := by
      intro m hm hlt'
      have e : (n : ℚ) * 2 ^ u = (m : ℚ) * 2 ^ (u + 1) := by
        rw [hm, zpow_add₀ (by norm_num)]
        push_cast
        ring
      rw [e]
      exact round64_dyadic m (u + 1) hlt' (by omega) (by rw [← e]; exact hfin)
    rcases hcase with hc | hc
    · exact key (2 ^ 52) (by rw [hc]; norm_num) (by norm_num)
    · exact key (-(2 ^ 52)) (by rw [hc]; norm_num) (by norm_num)

/-- Rounding does not go below a binary64 number `c > 0` that the argument
reaches. -/
theorem round64_ge {q c : ℚ} (m : ℤ) (hc0 : 0 < c) (hcm : c = (m : ℚ) * 2 ^ ulpExp c)
    (hq : c ≤ q) : round64 q = Num.inf false ∨ ∃ r, round64 q = Num.fin r ∧ c ≤ r := by
  have hq0 : 0 < q := lt_of_lt_of_le hc0 hq
  rcases round64_cases q with h | ⟨h, -⟩
  · left
    rw [h]
    simp [not_lt.2 hq0.le]
  right
  refine ⟨_, h, ?_⟩
  have hpow : (0 : ℚ) < 2 ^ ulpExp q := by positivity
  have hlog : Int.log 2 |c| ≤ Int.log 2 |q| := by
    rw [abs_of_pos hc0, abs_of_pos hq0]
    exact Int.log_mono_right hc0 hq
  have hle : ulpExp c ≤ ulpExp q := by
    unfold ulpExp
    omega
  rcases eq_or_lt_of_le hle with heq | hlt
  · have hm : (m : ℚ) ≤ q / 2 ^ ulpExp q := by
      rw [le_div_iff₀ hpow, ← heq, ← hcm]
      exact hq
    have : ((m : ℤ) : ℚ) ≤ (roundHalfEven (q / 2 ^ ulpExp q) : ℚ) := by
      exact_mod_cast le_roundHalfEven hm
    calc c = (m : ℚ) * 2 ^ ulpExp q := by rw [← heq, ← hcm]
      _ ≤ _ := mul_le_mul_of_nonneg_right this hpow.le
  · have hu : ulpExp q = Int.log 2 q - 52 ∧ Int.log 2 c < Int.log 2 q := by
      rw [abs_of_pos hc0, abs_of_pos hq0] at hlog
      unfold ulpExp at hlt ⊢
      rw [abs_of_pos hc0, abs_of_pos hq0] at hlt
      rw [abs_of_pos hq0]
      omega
    have h52 : ((2 ^ 52 : ℤ) : ℚ) ≤ q / 2 ^ ulpExp q := by
      rw [le_div_iff₀ hpow, hu.1]
      have := zpow_log2_le hq0
      have e : ((2 ^ 52 : ℤ) : ℚ) * 2 ^ (Int.log 2 q - 52) = 2 ^ Int.log 2 q := by
        rw [zpow_sub₀ (by norm_num)]
        norm_num
        field_simp
      rw [e]
      exact this
    have hn : ((2 ^ 52 : ℤ) : ℚ) ≤ (roundHalfEven (q / 2 ^ ulpExp q) : ℚ) := by
      exact_mod_cast le_roundHalfEven h52
    have hc1 : c < 2 ^ (Int.log 2 c + 1) := lt_zpow_log2_succ c
    have hc2 : (2 : ℚ) ^ (Int.log 2 c + 1) ≤ 2 ^ Int.log 2 q :=
      zpow_le_zpow_right₀ (by norm_num) (by omega)
    calc c ≤ 2 ^ Int.log 2 q := le_of_lt (lt_of_lt_of_le hc1 hc2)
      _ = ((2 ^ 52 : ℤ) : ℚ) * 2 ^ ulpExp q := by
        rw [hu.1, zpow_sub₀ (by norm_num)]
        norm_num
        field_simp
      _ ≤ _ := mul_le_mul_of_nonneg_right hn hpow.le

/-! ## Reading a quantity field -/

theorem digitVal_le {c : Char} (h : isDigit10 c = true) : digitVal c ≤ 9 := by
  simp only [isDigit10, Bool.and_eq_true, decide_eq_true_eq] at h
  unfold digitVal
  omega

theorem foldl_digits_lt (ds : List Char) (h : ∀ c ∈ ds, isDigit10 c = true) (a : Nat) :
    ds.foldl (fun acc c => 10 * acc + digitVal c) a + 1 ≤ (a + 1) * 10 ^ ds.length := by
  induction ds generalizing a with
  | nil => simp
  | cons c r ih =>
    have hc := digitVal_le (h c (List.mem_cons_self c r))
    have := ih (fun x hx => h x (List.mem_cons_of_mem c hx)) (10 * a + digitVal c)
    simp only [List.foldl_cons, List.length_cons]
    calc _ ≤ (10 * a + digitVal c + 1) * 10 ^ r.length := this
      _ ≤ ((a + 1) * 10) * 10 ^ r.length := Nat.mul_le_mul_right _ (by omega)
      _ = (a + 1) * 10 ^ (r.length + 1) := by ring

theorem mathInt_lt (ds : List Char) (h : ∀ c ∈ ds, isDigit10 c = true) :
    mathInt ds < 10 ^ ds.length := by
  have := foldl_digits_lt ds h 0
  unfold mathInt
  omega

theorem not_white_of_digit {c : Char} (h : isDigit10 c = true) : isStrWhiteSpace c = false := by
  simp only [isDigit10, Bool.and_eq_true, decide_eq_true_eq] at h
  have h1 : c.toNat ≠ 9 := by omega
  simp only [isStrWhiteSpace, Bool.or_eq_false_iff, Bool.and_eq_false_iff, decide_eq_false_iff_not]
  refine ⟨⟨⟨⟨⟨⟨⟨⟨⟨⟨⟨⟨⟨⟨?_, ?_⟩, ?_⟩, ?_⟩, ?_⟩, ?_⟩, ?_⟩, ?_⟩, ?_⟩, ?_⟩, ?_⟩, ?_⟩, ?_⟩, ?_⟩, ?_⟩ <;>
    omega

theorem fractionDigits_digits (l : List Char) : ∀ c ∈ fractionDigits l, isDigit10 c = true := by
  intro c hc
  cases l with
  | nil => simp [fractionDigits] at hc
  | cons d r =>
    simp only [fractionDigits] at hc
    split_ifs at hc
    · exact (List.mem_takeWhile_imp hc)
    · simp at hc

theorem mem_of_mem_afterFraction {l : List Char} {c : Char} (hc : c ∈ afterFraction l) :
    c ∈ l := by
  cases l with
  | nil => simp [afterFraction] at hc
  | cons d r =>
    simp only [afterFraction] at hc
    split_ifs at hc
    · exact List.mem_cons_of_mem d ((List.dropWhile_suffix isDigit10).subset hc)
    · exact hc

theorem htmlExponent_eq_zero {l : List Char} {e : Int} (h : htmlExponent l = some e)
    (he : 'e' ∉ l) (hE : 'E' ∉ l) : e = 0 := by
  cases l with
  | nil =>
    simp only [htmlExponent, Option.some.injEq] at h
    exact h.symm
  | cons c r =>
    by_cases h1 : c = 'e' ∨ c = 'E'
    · rcases h1 with h1 | h1
      · exact absurd (h1 ▸ List.mem_cons_self c r) he
      · exact absurd (h1 ▸ List.mem_cons_self c r) hE
    · simp [htmlExponent, h1] at h

/-- The string after an optional leading `-`. -/
theorem dropMinus_subset (s : List Char) :
    (if startsWithMinus s then s.drop 1 else s) ⊆ s := by
  split_ifs
  · exact fun c hc => List.mem_of_mem_drop hc
  · exact fun c hc => hc

/-- The parts of a valid floating-point number, in terms of the string. -/
theorem htmlParts_eq {s : List Char} {p : Bool × List Char × List Char × Int}
    (h : htmlParts s = some p) :
    p.1 = startsWithMinus s ∧
      p.2.1 = (if startsWithMinus s then s.drop 1 else s).takeWhile isDigit10 ∧
      (∀ c ∈ p.2.2.1, isDigit10 c = true) ∧
      (p.2.1 = [] → startsWithDot ((if startsWithMinus s then s.drop 1 else s).dropWhile
        isDigit10) = true) ∧
      ('e' ∉ s → 'E' ∉ s → p.2.2.2 = 0) := by
  have hsub := dropMinus_subset s
  unfold htmlParts at h
  simp only at h
  generalize (if startsWithMinus s then s.drop 1 else s) = r0 at h hsub ⊢
  by_cases hbad : (startsWithDot (r0.dropWhile isDigit10) &&
      (fractionDigits (r0.dropWhile isDigit10)).isEmpty ||
      !startsWithDot (r0.dropWhile isDigit10) && (r0.takeWhile isDigit10).isEmpty) = true
  · rw [if_pos hbad] at h
    exact absurd h (by simp)
  rw [if_neg hbad] at h
  split at h
  · exact absurd h (by simp)
  · rename_i e heq
    simp only [Option.some.injEq] at h
    subst h
    refine ⟨rfl, rfl, fractionDigits_digits _, ?_, ?_⟩
    · intro hip
      simp only [Bool.or_eq_true, Bool.and_eq_true, Bool.not_eq_true', not_or, not_and] at hbad
      by_contra hdot
      have := hbad.2 (by simpa using hdot)
      simp only [List.isEmpty_eq_true] at this
      exact this hip
    · intro he hE
      have sub : ∀ c, c ∈ afterFraction (r0.dropWhile isDigit10) → c ∈ s := fun c hc =>
        hsub ((List.dropWhile_suffix isDigit10).subset (mem_of_mem_afterFraction hc))
      exact htmlExponent_eq_zero heq (fun h => he (sub _ h)) (fun h => hE (sub _ h))

/-- On a valid floating-point number `parseInt` reads the integer digits with
the sign, and finds nothing to read exactly when there are none. -/
theorem parseInt10_of_htmlParts {s : List Char} {p : Bool × List Char × List Char × Int}
    (h : htmlParts s = some p) :
    parseInt10 s =
      if p.2.1 = [] then none
      else some (if p.1 then -(mathInt p.2.1 : Int) else (mathInt p.2.1 : Int)) := by
  obtain ⟨h1, h2, -, h4, -⟩ := htmlParts_eq h
  rw [h1]
  cases s with
  | nil =>
    have : p.2.1 = [] := by simpa [startsWithMinus] using h2
    simp [this, startsWithMinus, startsWithDot] at h4
  | cons c r =>
    by_cases hc : c = '-'
    · subst hc
      have hw : isStrWhiteSpace '-' = false := by decide
      simp only [startsWithMinus, decide_True, if_true, List.drop_succ_cons, List.drop_zero] at h2
      simp [parseInt10, List.dropWhile_cons, hw, dropSign, startsWithMinus, h2]
    · simp only [startsWithMinus, hc, decide_False, Bool.false_eq_true, if_false] at h2 h4
      by_cases hd : isDigit10 c = true
      · have hw := not_white_of_digit hd
        have hp : c ≠ '+' := by
          rintro rfl
          exact absurd hd (by decide)
        simp [parseInt10, List.dropWhile_cons, hw, dropSign, startsWithMinus, hc, hp, h2]
      · have hd' : isDigit10 c = false := by simpa using hd
        have hnil : p.2.1 = [] := by simpa [List.takeWhile_cons, hd'] using h2
        have hdot : c = '.' := by
          simpa [List.dropWhile_cons, hd', startsWithDot] using h4 hnil
        subst hdot
        have hw : isStrWhiteSpace '.' = false := by decide
        simp [parseInt10, List.dropWhile_cons, hw, dropSign, List.takeWhile_cons, hd', hnil]

theorem partsValue_fraction {fp : List Char} (h : ∀ c ∈ fp, isDigit10 c = true) :
    0 ≤ (mathInt fp : ℚ) / 10 ^ fp.length ∧ (mathInt fp : ℚ) / 10 ^ fp.length < 1 := by
  have hpos : (0 : ℚ) < 10 ^ fp.length := by positivity
  refine ⟨div_nonneg (by positivity) hpos.le, ?_⟩
  rw [div_lt_one hpos]
  exact_mod_cast mathInt_lt fp h

theorem enforceQty_range (s : List Char) : 0 ≤ enforceQty s ∧ enforceQty s ≤ 99 := by
  unfold enforceQty
  simp only
  split_ifs <;> omega

theorem enforceQty_none {s : List Char} (h : parseInt10 s = none) : enforceQty s = 0 := by
  simp [enforceQty, h]

theorem enforceQty_some {s : List Char} {n : Int} (h : parseInt10 s = some n) :
    enforceQty s = if n < 0 then 0 else if 99 < n then 99 else n := by
  unfold enforceQty
  simp only [h, Option.getD_some]
  split_ifs <;> omega

/-- A valid floating-point number that denotes a negative value is normalised
to `0`. -/
theorem enforceQty_of_negative {s : List Char} {v : ℚ} (h : htmlNumber s = some v) (hv : v < 0) :
    enforceQty s = 0 := by
  unfold htmlNumber at h
  obtain ⟨p, hp, rfl⟩ := Option.map_eq_some'.1 h
  obtain ⟨-, -, h3, -, -⟩ := htmlParts_eq hp
  have hf := partsValue_fraction h3
  have hpar := parseInt10_of_htmlParts hp
  have hneg : p.1 = true := by
    by_contra hn
    have hn' : p.1 = false := by simpa using hn
    unfold partsValue at hv
    rw [hn'] at hv
    have : (0 : ℚ) ≤ (if false = true then -1 else 1) *
        ((mathInt p.2.1 : ℚ) + (mathInt p.2.2.1 : ℚ) / 10 ^ p.2.2.1.length) * 10 ^ p.2.2.2 := by
      have h10 : (0 : ℚ) < 10 ^ p.2.2.2 := by positivity
      have hI : (0 : ℚ) ≤ (mathInt p.2.1 : ℚ) := by positivity
      simp only [Bool.false_eq_true, if_false, one_mul]
      exact mul_nonneg (by linarith [hf.1]) h10.le
    linarith
  rw [hneg] at hpar
  by_cases hip : p.2.1 = []
  · rw [if_pos hip] at hpar
    exact enforceQty_none hpar
  · rw [if_neg hip] at hpar
    rw [enforceQty_some hpar]
    simp only [if_true]
    split_ifs <;> omega

/-- A valid floating-point number written without an exponent (or with
exponent `0`): values above `99` are normalised to `99`, integers in `[0, 99]`
to themselves. -/
theorem enforceQty_of_plain {s : List Char} {p : Bool × List Char × List Char × Int}
    (hp : htmlParts s = some p) (he : p.2.2.2 = 0) :
    (99 < partsValue p → enforceQty s = 99) ∧
      (∀ n : ℤ, partsValue p = n → 0 ≤ n → n ≤ 99 → enforceQty s = n) := by
  obtain ⟨-, -, h3, -, -⟩ := htmlParts_eq hp
  have hf := partsValue_fraction h3
  have hpar := parseInt10_of_htmlParts hp
  have hI : (0 : ℚ) ≤ (mathInt p.2.1 : ℚ) := by positivity
  have hval : partsValue p = (if p.1 then -1 else 1) *
      ((mathInt p.2.1 : ℚ) + (mathInt p.2.2.1 : ℚ) / 10 ^ p.2.2.1.length) := by
    unfold partsValue
    rw [he]
    simp
  have hnil : p.2.1 = [] → mathInt p.2.1 = 0 := by
    intro h
    rw [h]
    rfl
  rw [hval]
  cases hs : p.1 with
  | true =>
    rw [hs] at hpar
    simp only [if_true] at hpar ⊢
    constructor
    · intro h
      linarith [hf.1]
    · intro n hn h0 h99
      have hn0 : (n : ℚ) ≤ 0 := by
        rw [← hn]
        linarith [hf.1]
      have hnz : n = 0 := by
        have : n ≤ 0 := by exact_mod_cast hn0
        omega
      subst hnz
      have hI0 : mathInt p.2.1 = 0 := by
        have : (mathInt p.2.1 : ℚ) ≤ 0 := by
          have := hn
          push_cast at this
          linarith [hf.1]
        have : mathInt p.2.1 ≤ 0 := by exact_mod_cast this
        omega
      by_cases hip : p.2.1 = []
      · rw [if_pos hip] at hpar
        exact enforceQty_none hpar
      · rw [if_neg hip] at hpar
        rw [enforceQty_some hpar, hI0]
        simp
  | false =>
    rw [hs] at hpar
    simp only [Bool.false_eq_true, if_false] at hpar
    simp only [Bool.false_eq_true, if_false, one_mul]
    constructor
    · intro h
      have h98 : (98 : ℚ) < (mathInt p.2.1 : ℚ) := by linarith [hf.2]
      have h99 : 99 ≤ mathInt p.2.1 := by
        have : 98 < mathInt p.2.1 := by exact_mod_cast h98
        omega
      have hip : p.2.1 ≠ [] := by
        intro h
        have := hnil h
        omega
      rw [if_neg hip] at hpar
      rw [enforceQty_some hpar]
      split_ifs <;> omega
    · intro n hn h0 h99
      have e1 : (n : ℚ) - (mathInt p.2.1 : ℚ) < 1 := by linarith [hf.2]
      have e2 : (0 : ℚ) ≤ (n : ℚ) - (mathInt p.2.1 : ℚ) := by linarith [hf.1]
      have hnI : n = (mathInt p.2.1 : ℤ) := by
        have a : n - (mathInt p.2.1 : ℤ) < 1 := by exact_mod_cast e1
        have b : 0 ≤ n - (mathInt p.2.1 : ℤ) := by exact_mod_cast e2
        omega
      by_cases hip : p.2.1 = []
      · rw [if_pos hip] at hpar
        rw [enforceQty_none hpar, hnI, hnil hip]
        rfl
      · rw [if_neg hip] at hpar
        rw [enforceQty_some hpar, ← hnI]
        split_ifs <;> omega

theorem htmlNumber_plain {s : List Char} {v : ℚ} (h : htmlNumber s = some v)
    (he : 'e' ∉ s) (hE : 'E' ∉ s) :
    ∃ p, htmlParts s = some p ∧ p.2.2.2 = 0 ∧ partsValue p = v := by
  unfold htmlNumber at h
  obtain ⟨p, hp, hv⟩ := Option.map_eq_some'.1 h
  exact ⟨p, hp, (htmlParts_eq hp).2.2.2.2 he hE, hv⟩

theorem parseInt10_intToString (k : Fin 100) :
    parseInt10 (intToString (k.val : Int)).data = some (k.val : Int) := by
  revert k
  decide

theorem enforceQty_intToString (k : Fin 100) :
    enforceQty (intToString (k.val : Int)).data = (k.val : Int) := by
  revert k
  decide

theorem enforceQty_cases (s : List Char) : ∃ k : Fin 100, enforceQty s = (k.val : Int) := by
  obtain ⟨h0, h99⟩ := enforceQty_range s
  exact ⟨⟨(enforceQty s).toNat, by omega⟩, by simp; omega⟩

/-- Normalising a normalised field changes nothing. -/
theorem enforceQty_idem (s : List Char) :
    enforceQty (intToString (enforceQty s)).data = enforceQty s := by
  obtain ⟨k, hk⟩ := enforceQty_cases s
  rw [hk]
  exact enforceQty_intToString k

/-! ## The loop of `recalc` -/

theorem recalcLoop_fst (items : List Item) (sum : Num) :
    (recalcLoop items sum).1 =
      items.map fun it => { it with value := intToString (enforceQty it.value.data) } := by
  induction items generalizing sum with
  | nil => rfl
  | cons it rest ih =>
    simp only [recalcLoop, List.map_cons, ih]
    rfl

theorem recalcLoop_snd (items : List Item) (sum : Num) :
    (recalcLoop items sum).2 =
      items.foldl (fun s it => s.add (it.price.mul (Num.fin (enforceQty it.value.data)))) sum := by
  induction items generalizing sum with
  | nil => rfl
  | cons it rest ih =>
    simp only [recalcLoop, List.foldl_cons, ih]
    rfl

theorem recalcLoop_append (l₁ l₂ : List Item) (sum : Num) :
    (recalcLoop (l₁ ++ l₂) sum).2 = (recalcLoop l₂ (recalcLoop l₁ sum).2).2 := by
  simp only [recalcLoop_snd, List.foldl_append]

/-- The loop reads from the corrected fields the quantities it already used. -/
theorem recalcLoop_idem (items : List Item) (sum : Num) :
    recalcLoop (recalcLoop items sum).1 sum = recalcLoop items sum := by
  induction items generalizing sum with
  | nil => rfl
  | cons it rest ih =>
    have hq : enforceQty (intToString (enforceQty it.value.data)).data =
        enforceQty it.value.data := enforceQty_idem _
    have h1 : recalcItem sum (recalcItem sum it).1 = recalcItem sum it := by
      simp only [recalcItem, hq]
    simp only [recalcLoop, h1, ih]

theorem recalc_inputs (now : Num) (pg : Page) :
    (recalc now pg).inputs = (recalcLoop pg.inputs (Num.fin 0)).1 := by
  unfold recalc animateTotal
  simp only
  split <;> rfl

theorem recalc_submitBtn (now : Num) (pg : Page) :
    (recalc now pg).submitBtn = pg.submitBtn.map fun _ => (recalcSum pg.inputs).isZero := by
  unfold recalc animateTotal recalcSum
  simp only
  cases h : pg.submitBtn <;> rfl

theorem recalc_frames (now : Num) (pg : Page) :
    (recalc now pg).frames =
      pg.frames ++ [{ start := pg.lastTotal, target := recalcSum pg.inputs, startTime := now }] := by
  unfold recalc animateTotal recalcSum
  simp only
  split <;> rfl

theorem recalc_lastTotal (now : Num) (pg : Page) : (recalc now pg).lastTotal = pg.lastTotal := by
  unfold recalc animateTotal
  simp only
  split <;> rfl

theorem recalc_totalEl (now : Num) (pg : Page) : (recalc now pg).totalEl = pg.totalEl := by
  unfold recalc animateTotal
  simp only
  split <;> rfl

/-! ## Evaluation of rounding on exact values -/

theorem round64_ofInt (n : ℤ) (q : ℚ) (h : q = (n : ℚ)) (hn : |n| < 2 ^ 53) :
    round64 q = Num.fin q := by
  rw [h]
  exact round64_intCast n hn

theorem round64_ofDyadic (m k : ℤ) (q : ℚ) (h : q = (m : ℚ) * 2 ^ k) (hm : |m| < 2 ^ 53)
    (hk : -1074 ≤ k) (hfin : |q| < 2 ^ (1024 : ℕ)) : round64 q = Num.fin q := by
  subst h
  exact round64_dyadic m k hm hk hfin

/-! ## Claims about the quantity fields -/

/-- Claim C2: whatever strings the quantity fields hold when `recalc` runs, the
value written back into each field is the decimal numeral of an integer `q`
with `0 ≤ q ≤ 99`, and that `q` is the quantity multiplied by the price and
added to the total handed to `animateTotal`. -/
theorem C2_enforced_quantity_in_range (now : Num) (pg : Page) :
    ∃ q : Item → ℤ,
      (∀ it, 0 ≤ q it ∧ q it ≤ 99 ∧ parseInt10 (intToString (q it)).data = some (q it)) ∧
      (recalc now pg).inputs = pg.inputs.map (fun it => { it with value := intToString (q it) }) ∧
      recalcSum pg.inputs =
        pg.inputs.foldl (fun s it => s.add (it.price.mul (Num.fin (q it)))) (Num.fin 0) ∧
      (recalc now pg).frames =
        pg.frames ++ [{ start := pg.lastTotal, target := recalcSum pg.inputs, startTime := now }] := by
  refine ⟨fun it => enforceQty it.value.data, ?_, ?_, ?_, recalc_frames now pg⟩
  · intro it
    obtain ⟨k, hk⟩ := enforceQty_cases it.value.data
    refine ⟨(enforceQty_range _).1, (enforceQty_range _).2, ?_⟩
    show parseInt10 (intToString (enforceQty it.value.data)).data = some (enforceQty it.value.data)
    rw [hk]
    exact parseInt10_intToString k
  · rw [recalc_inputs, recalcLoop_fst]
  · exact recalcLoop_snd _ _

/-- Claim C3, as stated, fails: in a number field `1e3` denotes `1000`, a value
above `99`, and `recalc` normalises it to `1`, not `99`. -/
theorem C3_counterexample :
    htmlNumber "1e3".data = some 1000 ∧ enforceQty "1e3".data = 1 ∧ enforcedField "1e3" = "1" ∧
      ¬ (∀ v : ℚ, htmlNumber "1e3".data = some v → 99 < v → enforceQty "1e3".data = 99) := by
  have hparts : htmlParts "1e3".data = some (false, ['1'], [], 3) := by decide
  have h1 : mathInt ['1'] = 1 := by decide
  have h0 : mathInt [] = 0 := by decide
  have hv : htmlNumber "1e3".data = some 1000 := by
    rw [htmlNumber, hparts]
    norm_num [partsValue, h0, h1]
  have hq : enforceQty "1e3".data = 1 := by decide
  refine ⟨hv, hq, by decide, ?_⟩
  intro h
  have := h 1000 hv (by norm_num)
  rw [hq] at this
  exact absurd this (by decide)

/-- Claim C3 (amended): `recalc` normalises a quantity-field string by the
integer numeral `parseInt` reads at its start.  A string with no such numeral
(the empty string in particular) gives `0`; a valid number denoting a negative
value gives `0`; a valid number written without an exponent gives `99` when it
denotes a value above `99` and gives `n` when it denotes an integer `n` in
`[0, 99]`; the resulting quantity is written back into the field. -/
theorem C3_normalisation_cases (s : String) :
    (parseInt10 s.data = none → enforceQty s.data = 0) ∧
    (s = "" → enforceQty s.data = 0) ∧
    (∀ v : ℚ, htmlNumber s.data = some v → v < 0 → enforceQty s.data = 0) ∧
    (∀ v : ℚ, htmlNumber s.data = some v → 'e' ∉ s.data → 'E' ∉ s.data → 99 < v →
      enforceQty s.data = 99) ∧
    (∀ (v : ℚ) (n : ℤ), htmlNumber s.data = some v → 'e' ∉ s.data → 'E' ∉ s.data →
      v = n → 0 ≤ n → n ≤ 99 → enforceQty s.data = n) ∧
    (∀ (sum price : Num),
      (recalcItem sum { price := price, value := s }).1.value = intToString (enforceQty s.data)) := by
  refine ⟨enforceQty_none, ?_, fun v h hv => enforceQty_of_negative h hv, ?_, ?_, fun _ _ => rfl⟩
  · rintro rfl
    decide
  · intro v h he hE hv
    obtain ⟨p, hp, h0, rfl⟩ := htmlNumber_plain h he hE
    exact (enforceQty_of_plain hp h0).1 hv
  · intro v n h he hE hv h0 h99
    obtain ⟨p, hp, hz, rfl⟩ := htmlNumber_plain h he hE
    exact (enforceQty_of_plain hp hz).2 n hv h0 h99

/-- Witness for C3: the empty string and `-5` give `0`, `150` gives `99`, `42`
gives `42`. -/
theorem C3_normalisation_cases_witness :
    enforceQty "".data = 0 ∧ enforceQty "-5".data = 0 ∧ enforceQty "150".data = 99 ∧
      enforceQty "42".data = 42 := by
  have e0 : mathInt [] = 0 := by decide
  have v5 : htmlNumber "-5".data = some (-5) := by
    have hparts : htmlParts "-5".data = some (true, ['5'], [], 0) := by decide
    have h5 : mathInt ['5'] = 5 := by decide
    rw [htmlNumber, hparts]
    norm_num [partsValue, e0, h5]
  have v150 : htmlNumber "150".data = some 150 := by
    have hparts : htmlParts "150".data = some (false, ['1', '5', '0'], [], 0) := by decide
    have h150 : mathInt ['1', '5', '0'] = 150 := by decide
    rw [htmlNumber, hparts]
    norm_num [partsValue, e0, h150]
  have v42 : htmlNumber "42".data = some 42 := by
    have hparts : htmlParts "42".data = some (false, ['4', '2'], [], 0) := by decide
    have h42 : mathInt ['4', '2'] = 42 := by decide
    rw [htmlNumber, hparts]
    norm_num [partsValue, e0, h42]
  exact ⟨(C3_normalisation_cases "").2.1 rfl,
    (C3_normalisation_cases "-5").2.2.1 (-5) v5 (by norm_num),
    (C3_normalisation_cases "150").2.2.2.1 150 v150 (by decide) (by decide) (by norm_num),
    (C3_normalisation_cases "42").2.2.2.2.1 42 42 v42 (by decide) (by decide) (by norm_num)
      (by norm_num) (by norm_num)⟩

/-- Claim C4: when a submit button exists, after `recalc` its `disabled` flag
is `true` if the computed total equals `0` and `false` if the computed total
is greater than `0`. -/
theorem C4_submit_disabled_iff_zero (now : Num) (pg : Page) (b : Bool)
    (hb : pg.submitBtn = some b) :
    (recalcSum pg.inputs = Num.fin 0 → (recalc now pg).submitBtn = some true) ∧
    ((Num.fin 0).lt (recalcSum pg.inputs) = true → (recalc now pg).submitBtn = some false) := by
  rw [recalc_submitBtn, hb]
  constructor
  · intro h
    simp [h, Num.isZero]
  · intro h
    have hne : recalcSum pg.inputs ≠ Num.fin 0 := by
      intro h0
      rw [h0] at h
      simp [Num.lt] at h
    simp [Num.isZero, hne]

/-- Claim C5: `recalc` is idempotent: a second run with no edit in between
computes the same total, sets the same `disabled` flag and leaves every field
as the first run left it. -/
theorem C5_recalc_idempotent (now now' : Num) (pg : Page) :
    recalcSum (recalc now pg).inputs = recalcSum pg.inputs ∧
    (recalc now' (recalc now pg)).submitBtn = (recalc now pg).submitBtn ∧
    (recalc now' (recalc now pg)).inputs = (recalc now pg).inputs := by
  have hs : recalcSum (recalc now pg).inputs = recalcSum pg.inputs := by
    unfold recalcSum
    rw [recalc_inputs, recalcLoop_idem]
  refine ⟨hs, ?_, ?_⟩
  · rw [recalc_submitBtn, hs, recalc_submitBtn]
    cases pg.submitBtn <;> rfl
  · rw [recalc_inputs, recalc_inputs, recalcLoop_idem]

/-! ## Claims about the total -/

theorem log2_eq {q : ℚ} {k : ℤ} (h1 : (2 : ℚ) ^ k ≤ q) (h2 : q < (2 : ℚ) ^ (k + 1)) :
    Int.log 2 q = k := by
  have hq : 0 < q := lt_of_lt_of_le (by positivity) h1
  have a := le_log2 hq h1
  have b := log2_lt hq h2
  omega

theorem ulpExp_eq {q : ℚ} (k : ℤ) (h1 : (2 : ℚ) ^ k ≤ |q|) (h2 : |q| < (2 : ℚ) ^ (k + 1))
    (hk : -1022 ≤ k) : ulpExp q = k - 52 := by
  unfold ulpExp
  rw [log2_eq h1 h2, max_eq_left hk]

theorem mul_fin (a b : ℚ) : (Num.fin a).mul (Num.fin b) = round64 (a * b) := rfl

theorem add_fin (a b : ℚ) : (Num.fin a).add (Num.fin b) = round64 (a + b) := rfl

theorem recalcLoop_exact (items : List (ℚ × String)) (acc : ℚ) (h : SumsExactly acc items) :
    (recalcLoop (toItems items) (Num.fin acc)).2 = Num.fin (acc + exactSum items) := by
  induction items generalizing acc with
  | nil => simp [toItems, recalcLoop, exactSum]
  | cons it rest ih =>
    obtain ⟨h1, h2, h3⟩ := h
    have := ih _ h3
    simp only [toItems, List.map_cons, recalcLoop, recalcItem, Num.mul, Num.add, h1, h2] at this ⊢
    rw [this]
    simp only [exactSum, List.map_cons, List.sum_cons]
    congr 1
    ring

theorem num_add_nonneg {x y : Num} (hx : x.nonneg) (hy : y.nonneg) : (x.add y).nonneg := by
  cases x with
  | nan => exact absurd hx (by simp [Num.nonneg])
  | inf a =>
    cases y with
    | nan => exact absurd hy (by simp [Num.nonneg])
    | inf b =>
      simp only [Num.nonneg] at hx hy
      subst hx hy
      simp [Num.add, Num.nonneg]
    | fin q => simpa [Num.add] using hx
  | fin p =>
    cases y with
    | nan => exact absurd hy (by simp [Num.nonneg])
    | inf b => simpa [Num.add] using hy
    | fin q =>
      simp only [Num.nonneg] at hx hy
      exact round64_nonneg (add_nonneg hx hy)

theorem num_mul_nonneg {p q : ℚ} (hp : 0 ≤ p) (hq : 0 ≤ q) :
    ((Num.fin p).mul (Num.fin q)).nonneg :=
  round64_nonneg (mul_nonneg hp hq)

theorem recalcLoop_nonneg (items : List (ℚ × String)) (h : ∀ it ∈ items, 0 ≤ it.1) (sum : Num)
    (hs : sum.nonneg) : (recalcLoop (toItems items) sum).2.nonneg := by
  induction items generalizing sum with
  | nil => exact hs
  | cons it rest ih =>
    simp only [toItems, List.map_cons, recalcLoop, recalcItem]
    apply ih (fun x hx => h x (List.mem_cons_of_mem it hx))
    apply num_add_nonneg hs
    apply num_mul_nonneg (h it (List.mem_cons_self it rest))
    exact_mod_cast (enforceQty_range it.2.data).1

/-- Claim C1, as stated, fails: for one line item whose price is the binary64
number nearest to `0.1` and whose field holds `3`, `recalc` computes
`0.30000000000000004…` (the product rounded to binary64, here a tie rounded to
even), which is not the exact product of the price and `3`. -/
theorem C1_counterexample :
    (Num.fin (3602879701896397 / 36028797018963968)).isDouble ∧
    recalcSum (toItems [(3602879701896397 / 36028797018963968, "3")]) =
      Num.fin (1351079888211149 / 4503599627370496) ∧
    recalcSum (toItems [(3602879701896397 / 36028797018963968, "3")]) ≠
      Num.fin (exactSum [(3602879701896397 / 36028797018963968, "3")]) := by
  have hq : enforceQty "3".data = 3 := by decide
  have hd : round64 (3602879701896397 / 36028797018963968) =
      Num.fin (3602879701896397 / 36028797018963968) :=
    round64_ofDyadic 3602879701896397 (-55) _ (by norm_num) (by norm_num) (by norm_num)
      (by norm_num [abs_of_pos])
  have hu := ulpExp_eq (q := 3602879701896397 / 36028797018963968 * 3) (-2)
    (by norm_num [abs_of_pos]) (by norm_num [abs_of_pos]) (by norm_num)
  have hmul : round64 (3602879701896397 / 36028797018963968 * 3) =
      Num.fin (1351079888211149 / 4503599627370496) := by
    unfold round64
    rw [hu]
    norm_num [roundHalfEven, abs_of_pos]
  have hadd : round64 (0 + 1351079888211149 / 4503599627370496) =
      Num.fin (1351079888211149 / 4503599627370496) := by
    rw [zero_add]
    exact round64_ofDyadic 1351079888211149 (-52) _ (by norm_num) (by norm_num) (by norm_num)
      (by norm_num [abs_of_pos])
  have hsum : recalcSum (toItems [(3602879701896397 / 36028797018963968, "3")]) =
      Num.fin (1351079888211149 / 4503599627370496) := by
    simp only [recalcSum, toItems, List.map_cons, List.map_nil, recalcLoop, recalcItem, hq,
      mul_fin, Int.cast_ofNat]
    rw [hmul, add_fin, hadd]
  refine ⟨hd, hsum, ?_⟩
  rw [hsum]
  simp only [exactSum, List.map_cons, List.map_nil, List.sum_cons, List.sum_nil, hq]
  intro h
  have := Num.fin.inj h
  norm_num at this

/-- Claim C1 (amended): the total `recalc` computes and passes to `animateTotal`
is the sum, accumulated from `0` in field order in binary64 arithmetic, of the
rounded products price × clamped quantity, the clamped quantity being the value
written back into the field; it equals the exact sum of price × clamped
quantity whenever no product and no partial sum needs rounding. -/
theorem C1_total_is_rounded_sum (items : List (ℚ × String)) :
    recalcSum (toItems items) =
      items.foldl (fun s it => s.add ((Num.fin it.1).mul (Num.fin (enforceQty it.2.data))))
        (Num.fin 0) ∧
    (recalcLoop (toItems items) (Num.fin 0)).1 =
      items.map (fun it => { price := Num.fin it.1, value := intToString (enforceQty it.2.data) }) ∧
    (SumsExactly 0 items → recalcSum (toItems items) = Num.fin (exactSum items)) := by
  refine ⟨?_, ?_, ?_⟩
  · unfold recalcSum
    rw [recalcLoop_snd, toItems, List.foldl_map]
  · rw [recalcLoop_fst, toItems, List.map_map]
    rfl
  · intro h
    have := recalcLoop_exact items 0 h
    rw [zero_add] at this
    exact this

/-- Witness for C1: prices `5.00` and `3.50` with quantities `2` and `1` give
`13.50`. -/
theorem C1_total_is_rounded_sum_witness :
    SumsExactly 0 [(5, "2"), (7 / 2, "1")] ∧
      recalcSum (toItems [(5, "2"), (7 / 2, "1")]) = Num.fin (27 / 2) := by
  have h2 : enforceQty "2".data = 2 := by decide
  have h1 : enforceQty "1".data = 1 := by decide
  have hex : SumsExactly 0 [(5, "2"), (7 / 2, "1")] := by
    simp only [SumsExactly, h1, h2, and_true]
    norm_num only
    refine ⟨round64_ofInt 10 _ (by norm_num) (by norm_num),
      round64_ofInt 10 _ (by norm_num) (by norm_num),
      round64_ofDyadic 7 (-1) _ (by norm_num) (by norm_num) (by norm_num) (by norm_num [abs_of_pos]),
      round64_ofDyadic 27 (-1) _ (by norm_num) (by norm_num) (by norm_num) (by norm_num [abs_of_pos])⟩
  refine ⟨hex, ?_⟩
  have := (C1_total_is_rounded_sum [(5, "2"), (7 / 2, "1")]).2.2 hex
  rw [this]
  simp only [exactSum, List.map_cons, List.map_nil, List.sum_cons, List.sum_nil, h1, h2]
  norm_num

/-- Claim C6, as stated, fails: a line item with price `-1` and quantity `1`
gives the total `-1`. -/
theorem C6_counterexample :
    recalcSum (toItems [(-1, "1")]) = Num.fin (-1) ∧ ¬ (recalcSum (toItems [(-1, "1")])).nonneg := by
  have h1 : enforceQty "1".data = 1 := by decide
  have hsum : recalcSum (toItems [(-1, "1")]) = Num.fin (-1) := by
    simp only [recalcSum, toItems, List.map_cons, List.map_nil, recalcLoop, recalcItem, h1,
      mul_fin, Int.cast_one, mul_one]
    rw [round64_ofInt (-1) (-1) (by norm_num) (by norm_num), add_fin,
      round64_ofInt (-1) (0 + -1) (by norm_num) (by norm_num), zero_add]
  refine ⟨hsum, ?_⟩
  rw [hsum]
  simp [Num.nonneg]

/-- Claim C6 (amended): for every set of line items whose prices are all finite
and not negative, the total computed by `recalc` is `≥ 0`. -/
theorem C6_total_nonneg (items : List (ℚ × String)) (h : ∀ it ∈ items, 0 ≤ it.1) :
    (recalcSum (toItems items)).nonneg :=
  recalcLoop_nonneg items h (Num.fin 0) (le_refl (0 : ℚ))

/-- Witness for C6: prices `5.00` and `3.50`. -/
theorem C6_total_nonneg_witness : (recalcSum (toItems [(5, "2"), (7 / 2, "1")])).nonneg :=
  C6_total_nonneg [(5, "2"), (7 / 2, "1")] (by
    intro it hit
    simp only [List.mem_cons, List.mem_singleton, List.not_mem_nil, or_false] at hit
    rcases hit with rfl | rfl <;> norm_num)

/-- Witness for C4: with one item priced `4.00`, an empty field gives total `0`
and a disabled button, the field `2` gives total `8` and an enabled button. -/
theorem C4_submit_disabled_iff_zero_witness :
    (recalc (Num.fin 0)
        { totalEl := some "", inputs := [{ price := Num.fin 4, value := "" }], form := true,
          submitBtn := some false, lastTotal := Num.fin 0, frames := [] }).submitBtn = some true ∧
    (recalc (Num.fin 0)
        { totalEl := some "", inputs := [{ price := Num.fin 4, value := "2" }], form := true,
          submitBtn := some true, lastTotal := Num.fin 0, frames := [] }).submitBtn = some false := by
  have h0 : enforceQty "".data = 0 := by decide
  have h2 : enforceQty "2".data = 2 := by decide
  have s0 : recalcSum [{ price := Num.fin 4, value := "" }] = Num.fin 0 := by
    simp only [recalcSum, recalcLoop, recalcItem, h0, mul_fin, Int.cast_zero, mul_zero]
    rw [round64_zero, add_fin, add_zero, round64_zero]
  have s2 : recalcSum [{ price := Num.fin 4, value := "2" }] = Num.fin 8 := by
    simp only [recalcSum, recalcLoop, recalcItem, h2, mul_fin, Int.cast_ofNat]
    rw [round64_ofInt 8 (4 * 2) (by norm_num) (by norm_num), add_fin,
      round64_ofInt 8 (0 + 4 * 2) (by norm_num) (by norm_num)]
    norm_num
  exact ⟨(C4_submit_disabled_iff_zero (Num.fin 0) _ false rfl).1 s0,
    (C4_submit_disabled_iff_zero (Num.fin 0) _ true rfl).2 (by rw [s2]; simp [Num.lt])⟩

/-! ## Claims about the animation -/

theorem animateTotal_frames (newTotal now : Num) (pg : Page) :
    (animateTotal newTotal now pg).frames =
      pg.frames ++ [{ start := pg.lastTotal, target := newTotal, startTime := now }] := rfl

theorem animate_of_totalEl {a : Anim} {time : Num} {pg : Page} {txt : String}
    (h : pg.totalEl = some txt) :
    animate a time pg =
      if (progressAt a time).lt (Num.fin 1) then
        Except.ok { pg with totalEl := some ("$" ++ toFixed2 (valueAt a time)),
                            frames := pg.frames ++ [a] }
      else
        Except.ok { pg with totalEl := some ("$" ++ toFixed2 (valueAt a time)),
                            lastTotal := a.target } := by
  unfold animate
  simp only [h]

/-- Claim C7: the code breaks it.  On a page with no total display element
(`totalEl` is `null`), whatever the inputs, the form and the button, the
initialisation completes, but the first animation frame callback it schedules
throws a `TypeError` at the assignment to `totalEl.textContent`. -/
theorem C7_frame_throws_without_totalEl (inputs : List Item) (form : Bool)
    (formSubmit : Option Bool) (now time : Num) :
    (init none inputs form formSubmit now).frames =
      [{ start := Num.fin 0, target := recalcSum inputs, startTime := now }] ∧
    runFrame time (init none inputs form formSubmit now) = Except.error JSError.typeError := by
  have hf : (init none inputs form formSubmit now).frames =
      [{ start := Num.fin 0, target := recalcSum inputs, startTime := now }] := by
    unfold init
    rw [recalc_frames]
    rfl
  have ht : (init none inputs form formSubmit now).totalEl = none := by
    unfold init
    rw [recalc_totalEl]
  refine ⟨hf, ?_⟩
  simp only [runFrame, hf, animate, ht]

theorem round64_eval (q : ℚ) (k : ℤ) (r : ℚ) (h1 : (2 : ℚ) ^ k ≤ |q|)
    (h2 : |q| < (2 : ℚ) ^ (k + 1)) (hk : -1022 ≤ k)
    (hr : (roundHalfEven (q / 2 ^ (k - 52)) : ℚ) * 2 ^ (k - 52) = r)
    (hfin : |r| < 2 ^ (1024 : ℕ)) : round64 q = Num.fin r := by
  unfold round64
  simp only [ulpExp_eq k h1 h2 hk, hr]
  rw [if_neg (not_le.2 hfin)]

theorem progressAt_halfway :
    progressAt { start := Num.fin 0, target := Num.fin 10, startTime := Num.fin 0 } (Num.fin 125) =
      Num.fin (1 / 2) := by
  simp only [progressAt, Num.sub, Num.neg, add_fin, duration]
  rw [round64_ofInt 125 (125 + -0) (by norm_num) (by norm_num)]
  simp only [Num.divBy]
  rw [round64_ofDyadic 1 (-1) ((125 + -0) / 250) (by norm_num) (by norm_num) (by norm_num)
    (by norm_num [abs_of_pos])]
  norm_num [Num.min, Num.lt]

theorem valueAt_halfway :
    valueAt { start := Num.fin 0, target := Num.fin 10, startTime := Num.fin 0 } (Num.fin 125) =
      Num.fin 5 := by
  simp only [valueAt, progressAt_halfway, Num.sub, Num.neg, add_fin]
  rw [round64_ofInt 10 (10 + -0) (by norm_num) (by norm_num), mul_fin,
    round64_ofInt 5 ((10 + -0) * (1 / 2)) (by norm_num) (by norm_num), add_fin,
    round64_ofInt 5 (0 + (10 + -0) * (1 / 2)) (by norm_num) (by norm_num)]
  norm_num

theorem toFixed2_five : toFixed2 (Num.fin 5) = "5.00" := by
  have hfl : ⌊|(5 : ℚ)| * 100 + 1 / 2⌋₊ = 500 := by
    rw [Nat.floor_eq_iff (by positivity)]
    norm_num [abs_of_pos]
  simp only [toFixed2]
  rw [if_neg (by norm_num), if_neg (by norm_num [abs_of_pos]), hfl]
  decide

theorem lt_halfway : (Num.fin (1 / 2)).lt (Num.fin 1) = true := by
  simp only [Num.lt, decide_eq_true_eq]
  norm_num

theorem animate_halfway :
    animate { start := Num.fin 0, target := Num.fin 10, startTime := Num.fin 0 } (Num.fin 125)
        { totalEl := some "$0.00", inputs := [], form := false, submitBtn := none,
          lastTotal := Num.fin 0, frames := [] } =
      Except.ok
        { totalEl := some "$5.00", inputs := [], form := false, submitBtn := none,
          lastTotal := Num.fin 0,
          frames := [{ start := Num.fin 0, target := Num.fin 10, startTime := Num.fin 0 }] } := by
  rw [animate_of_totalEl rfl, progressAt_halfway, valueAt_halfway, toFixed2_five, if_pos lt_halfway]
  rfl

/-- Claim C9, as stated, fails: with `lastTotal = 0`, an animation towards `10`
started at time `0` displays `$5.00` at time `125` and is still in flight; an
animation towards `20` started then captures the start value `0`, not the
in-flight value `5`. -/
theorem C9_counterexample :
    valueAt { start := Num.fin 0, target := Num.fin 10, startTime := Num.fin 0 } (Num.fin 125) =
      Num.fin 5 ∧
    runFrame (Num.fin 125)
        (animateTotal (Num.fin 10) (Num.fin 0)
          { totalEl := some "$0.00", inputs := [], form := false, submitBtn := none,
            lastTotal := Num.fin 0, frames := [] }) =
      Except.ok
        { totalEl := some "$5.00", inputs := [], form := false, submitBtn := none,
          lastTotal := Num.fin 0,
          frames := [{ start := Num.fin 0, target := Num.fin 10, startTime := Num.fin 0 }] } ∧
    (animateTotal (Num.fin 20) (Num.fin 130)
        { totalEl := some "$5.00", inputs := [], form := false, submitBtn := none,
          lastTotal := Num.fin 0,
          frames := [{ start := Num.fin 0, target := Num.fin 10, startTime := Num.fin 0 }] }).frames =
      [{ start := Num.fin 0, target := Num.fin 10, startTime := Num.fin 0 },
       { start := Num.fin 0, target := Num.fin 20, startTime := Num.fin 130 }] ∧
    Num.fin 0 ≠ Num.fin 5 := by
  refine ⟨valueAt_halfway, ?_, rfl, by simp⟩
  simp only [runFrame, animateTotal, List.nil_append]
  exact animate_halfway

theorem min_one_of_nonneg {x : Num} (hx : x.nonneg) :
    ∃ p : ℚ, Num.min x (Num.fin 1) = Num.fin p ∧ 0 ≤ p ∧ p ≤ 1 := by
  cases x with
  | nan => exact absurd hx (by simp [Num.nonneg])
  | inf s =>
    simp only [Num.nonneg] at hx
    subst hx
    exact ⟨1, by simp [Num.min, Num.lt], by norm_num, le_refl 1⟩
  | fin q =>
    simp only [Num.nonneg] at hx
    by_cases h : 1 < q
    · exact ⟨1, by simp [Num.min, Num.lt, h], by norm_num, le_refl 1⟩
    · exact ⟨q, by simp [Num.min, Num.lt, h], hx, not_lt.1 h⟩

theorem divBy_duration_nonneg {x : Num} (hx : x.nonneg) : (x.divBy duration).nonneg := by
  cases x with
  | nan => exact absurd hx (by simp [Num.nonneg])
  | inf s =>
    simp only [Num.nonneg] at hx
    subst hx
    simp [Num.divBy, Num.nonneg, duration]
  | fin q =>
    simp only [Num.nonneg] at hx
    exact round64_nonneg (div_nonneg hx (by norm_num [duration]))

theorem sub_fin (a b : ℚ) : (Num.fin a).sub (Num.fin b) = round64 (a - b) := by
  simp only [Num.sub, Num.neg, add_fin, sub_eq_add_neg]

theorem sub_isDouble (x y : Num) : (x.sub y).isDouble := by
  cases x <;> cases y <;> simp only [Num.sub, Num.neg, Num.add] <;>
    first
      | exact round64_isDouble _
      | trivial
      | (split_ifs <;> trivial)

theorem mul_one_of_isDouble {x : Num} (hx : x.isDouble) : x.mul (Num.fin 1) = x := by
  cases x with
  | nan => rfl
  | inf s =>
    have h10 : ¬ ((1 : ℚ) < 0) := by norm_num
    simp [Num.mul, h10]
  | fin q =>
    rw [mul_fin, mul_one]
    exact hx

theorem ulpExp_one : ulpExp 1 = -52 := by
  have := ulpExp_eq (q := 1) 0 (by norm_num) (by norm_num) (by norm_num)
  simpa using this

theorem ulpExp_duration : ulpExp 250 = -45 := by
  have := ulpExp_eq (q := 250) 7 (by norm_num [abs_of_pos]) (by norm_num [abs_of_pos])
    (by norm_num)
  simpa using this

theorem toFixed2_of_nonneg (q : ℚ) (n : ℕ) (h0 : 0 ≤ q) (h21 : q < 10 ^ 21)
    (hn : ⌊q * 100 + 1 / 2⌋₊ = n) : toFixed2 (Num.fin q) = fixedDigits n := by
  simp only [toFixed2]
  rw [if_neg (not_lt.2 h0), abs_of_nonneg h0, if_neg (not_le.2 h21), hn]
  exact String.empty_append _

/-- From `250` milliseconds on the computed fraction is `1`. -/
theorem progressAt_done (a : Anim) (t t0 : ℚ) (h0 : a.startTime = Num.fin t0)
    (h : 250 ≤ t - t0) : progressAt a (Num.fin t) = Num.fin 1 := by
  have hd := round64_ge (q := t - t0) (c := 250) (250 * 2 ^ 45) (by norm_num)
    (by rw [ulpExp_duration]; norm_num) h
  have hone : ∀ r : ℚ, 250 ≤ r →
      Num.min (round64 (r / 250)) (Num.fin 1) = Num.fin 1 := by
    intro r hr
    have h1 : (1 : ℚ) ≤ r / 250 := by
      rw [le_div_iff₀ (by norm_num)]
      linarith
    rcases round64_ge (q := r / 250) (c := 1) (2 ^ 52) (by norm_num)
      (by rw [ulpExp_one]; norm_num) h1 with hr' | ⟨r', hr', hle⟩
    · rw [hr']
      simp [Num.min, Num.lt]
    · rw [hr']
      by_cases h2 : 1 < r'
      · simp [Num.min, Num.lt, h2]
      · have : r' = 1 := le_antisymm (not_lt.1 h2) hle
        subst this
        simp [Num.min, Num.lt]
  unfold progressAt
  rw [h0, sub_fin]
  rcases hd with hd | ⟨r, hd, hr⟩
  · rw [hd]
    have h250 : ¬ ((250 : ℚ) < 0) := by norm_num
    simp [Num.divBy, Num.min, Num.lt, duration, h250]
  · rw [hd]
    simp only [Num.divBy, duration]
    exact hone r hr

/-- Claim C8, as stated, fails twice.  A frame whose time is before the start
time has a negative fraction: with start time `125`, the frame at time `0` of
the animation from `0` to `10` has fraction `-1/2` and displays `-5`.  And a
completed animation need not display its target exactly: from
`s = 0.008` to `e = 0.075` (the binary64 numbers nearest to them) the frame at
`250` displays `s + (e - s) = 0.07500000000000001`, one unit in the last place
above `e`, written `$0.08` where `e` itself would be written `$0.07`. -/
theorem C8_counterexample :
    progressAt { start := Num.fin 0, target := Num.fin 10, startTime := Num.fin 125 } (Num.fin 0) =
      Num.fin (-1 / 2) ∧
    valueAt { start := Num.fin 0, target := Num.fin 10, startTime := Num.fin 125 } (Num.fin 0) =
      Num.fin (-5) ∧
    (Num.fin (1152921504606847 / 144115188075855872)).isDouble ∧
    (Num.fin (5404319552844595 / 72057594037927936)).isDouble ∧
    progressAt { start := Num.fin (1152921504606847 / 144115188075855872),
                 target := Num.fin (5404319552844595 / 72057594037927936),
                 startTime := Num.fin 0 } (Num.fin 250) = Num.fin 1 ∧
    valueAt { start := Num.fin (1152921504606847 / 144115188075855872),
              target := Num.fin (5404319552844595 / 72057594037927936),
              startTime := Num.fin 0 } (Num.fin 250) =
      Num.fin (1351079888211149 / 18014398509481984) ∧
    Num.fin (1351079888211149 / 18014398509481984) ≠
      Num.fin (5404319552844595 / 72057594037927936) ∧
    toFixed2 (Num.fin (1351079888211149 / 18014398509481984)) = "0.08" ∧
    toFixed2 (Num.fin (5404319552844595 / 72057594037927936)) = "0.07" := by
  have hp : progressAt { start := Num.fin 0, target := Num.fin 10, startTime := Num.fin 125 }
      (Num.fin 0) = Num.fin (-1 / 2) := by
    simp only [progressAt, sub_fin, duration]
    rw [round64_ofInt (-125) (0 - 125) (by norm_num) (by norm_num)]
    simp only [Num.divBy]
    rw [round64_ofDyadic (-1) (-1) ((0 - 125) / 250) (by norm_num) (by norm_num) (by norm_num)
      (by norm_num [abs_lt])]
    norm_num [Num.min, Num.lt]
  have hv : valueAt { start := Num.fin 0, target := Num.fin 10, startTime := Num.fin 125 }
      (Num.fin 0) = Num.fin (-5) := by
    simp only [valueAt, hp, sub_fin]
    rw [round64_ofInt 10 (10 - 0) (by norm_num) (by norm_num), mul_fin,
      round64_ofInt (-5) ((10 - 0) * (-1 / 2)) (by norm_num) (by norm_num), add_fin,
      round64_ofInt (-5) (0 + (10 - 0) * (-1 / 2)) (by norm_num) (by norm_num)]
    norm_num
  have hs : round64 (1152921504606847 / 144115188075855872) =
      Num.fin (1152921504606847 / 144115188075855872) :=
    round64_ofDyadic 1152921504606847 (-57) _ (by norm_num) (by norm_num) (by norm_num)
      (by norm_num [abs_of_pos])
  have he : round64 (5404319552844595 / 72057594037927936) =
      Num.fin (5404319552844595 / 72057594037927936) :=
    round64_ofDyadic 5404319552844595 (-56) _ (by norm_num) (by norm_num) (by norm_num)
      (by norm_num [abs_of_pos])
  have hp1 := progressAt_done
    { start := Num.fin (1152921504606847 / 144115188075855872),
      target := Num.fin (5404319552844595 / 72057594037927936),
      startTime := Num.fin 0 } 250 0 rfl (by norm_num)
  have hsub : round64 (5404319552844595 / 72057594037927936 -
      1152921504606847 / 144115188075855872) = Num.fin (1206964700135293 / 18014398509481984) :=
    round64_eval _ (-4) _ (by norm_num [abs_of_pos]) (by norm_num [abs_of_pos]) (by norm_num)
      (by norm_num [roundHalfEven]) (by norm_num [abs_of_pos])
  have hmul : round64 (1206964700135293 / 18014398509481984 * 1) =
      Num.fin (1206964700135293 / 18014398509481984) := by
    rw [mul_one]
    exact round64_ofDyadic 1206964700135293 (-54) _ (by norm_num) (by norm_num) (by norm_num)
      (by norm_num [abs_of_pos])
  have hadd : round64 (1152921504606847 / 144115188075855872 +
      1206964700135293 / 18014398509481984) = Num.fin (1351079888211149 / 18014398509481984) :=
    round64_eval _ (-4) _ (by norm_num [abs_of_pos]) (by norm_num [abs_of_pos]) (by norm_num)
      (by norm_num [roundHalfEven]) (by norm_num [abs_of_pos])
  have hv1 :
      valueAt
        { start := Num.fin (1152921504606847 / 144115188075855872),
          target := Num.fin (5404319552844595 / 72057594037927936),
          startTime := Num.fin 0 } (Num.fin 250) =
      Num.fin (1351079888211149 / 18014398509481984) := by
    simp only [valueAt, hp1, sub_fin]
    rw [hsub, mul_fin, hmul, add_fin, hadd]
  have hf8 : ⌊(1351079888211149 / 18014398509481984 : ℚ) * 100 + 1 / 2⌋₊ = 8 := by
    rw [Nat.floor_eq_iff (by positivity)]
    norm_num
  have hf7 : ⌊(5404319552844595 / 72057594037927936 : ℚ) * 100 + 1 / 2⌋₊ = 7 := by
    rw [Nat.floor_eq_iff (by positivity)]
    norm_num
  refine ⟨hp, hv, hs, he, hp1, hv1, ?_, ?_, ?_⟩
  · intro h
    have := Num.fin.inj h
    norm_num at this
  · rw [toFixed2_of_nonneg _ 8 (by norm_num) (by norm_num) hf8]
    decide
  · rw [toFixed2_of_nonneg _ 7 (by norm_num) (by norm_num) hf7]
    decide

/-- Claim C8 (amended): for an animation with captured start `s`, target `e`
and start time `t0`, every frame whose time `t` is not before `t0` computes a
fraction `p` in `[0, 1]` and displays `s + (e - s)·p` evaluated in binary64
arithmetic; and for every frame with `t - t0 ≥ 250` the fraction is `1`, the
displayed value is `s + (e - s)` in binary64 arithmetic (exactly `e` whenever
`e - s` needs no rounding), `lastTotal` is set to `e`, and no further frame is
requested. -/
theorem C8_frame_value (a : Anim) (t t0 : ℚ) (h0 : a.startTime = Num.fin t0) (ht : t0 ≤ t) :
    ∃ p : ℚ, progressAt a (Num.fin t) = Num.fin p ∧ 0 ≤ p ∧ p ≤ 1 ∧
      valueAt a (Num.fin t) = a.start.add ((a.target.sub a.start).mul (Num.fin p)) ∧
      (250 ≤ t - t0 →
        p = 1 ∧
        valueAt a (Num.fin t) = a.start.add (a.target.sub a.start) ∧
        (∀ s e : ℚ, a.start = Num.fin s → a.target = Num.fin e →
          round64 (e - s) = Num.fin (e - s) → round64 e = Num.fin e →
          valueAt a (Num.fin t) = Num.fin e) ∧
        (∀ (pg : Page) (txt : String), pg.totalEl = some txt →
          animate a (Num.fin t) pg =
            Except.ok { pg with totalEl := some ("$" ++ toFixed2 (valueAt a (Num.fin t))),
                                lastTotal := a.target })) := by
  have hnn : (((Num.fin t).sub a.startTime).divBy duration).nonneg := by
    rw [h0, sub_fin]
    exact divBy_duration_nonneg (round64_nonneg (by linarith))
  obtain ⟨p, hp, hp0, hp1⟩ := min_one_of_nonneg hnn
  have hpa : progressAt a (Num.fin t) = Num.fin p := hp
  refine ⟨p, hpa, hp0, hp1, ?_, ?_⟩
  · simp only [valueAt, hpa]
  · intro h250
    have hdone := progressAt_done a t t0 h0 h250
    have hp1' : p = 1 := by
      rw [hpa] at hdone
      exact Num.fin.inj hdone
    have hval : valueAt a (Num.fin t) = a.start.add (a.target.sub a.start) := by
      simp only [valueAt, hdone]
      rw [mul_one_of_isDouble (sub_isDouble _ _)]
    refine ⟨hp1', hval, ?_, ?_⟩
    · intro s e hs he hsub hdbl
      rw [hval, hs, he, sub_fin, hsub, add_fin]
      have : s + (e - s) = e := by ring
      rw [this]
      exact hdbl
    · intro pg txt htxt
      rw [animate_of_totalEl htxt, hdone]
      have : (Num.fin 1).lt (Num.fin 1) = false := by simp [Num.lt]
      rw [this]
      rfl

/-- Witness for C8: the animation from `0` to `10` started at time `0` displays
exactly `10` at time `250`. -/
theorem C8_frame_value_witness :
    valueAt { start := Num.fin 0, target := Num.fin 10, startTime := Num.fin 0 } (Num.fin 250) =
      Num.fin 10 := by
  obtain ⟨p, -, -, -, -, h⟩ :=
    C8_frame_value { start := Num.fin 0, target := Num.fin 10, startTime := Num.fin 0 } 250 0 rfl
      (by norm_num)
  exact (h (by norm_num)).2.2.1 0 10 rfl rfl
    (round64_ofInt 10 _ (by norm_num) (by norm_num))
    (round64_ofInt 10 _ (by norm_num) (by norm_num))

/-! ## Claims about the displayed text -/

theorem digitChar_spec (d : Nat) (h : d < 10) :
    isDigit10 (Nat.digitChar d) = true ∧ digitVal (Nat.digitChar d) = d := by
  interval_cases d <;> decide

theorem mathInt_append_singleton (l : List Char) (c : Char) :
    mathInt (l ++ [c]) = 10 * mathInt l + digitVal c := by
  simp [mathInt, List.foldl_append]

/-- The digits `Nat.toDigitsCore` puts in front of its accumulator are the
decimal numeral of `n`. -/
theorem toDigitsCore_spec (fuel n : Nat) (ds : List Char) (h : n < fuel) :
    ∃ l : List Char, Nat.toDigitsCore 10 fuel n ds = l ++ ds ∧ l ≠ [] ∧
      (∀ c ∈ l, isDigit10 c = true) ∧ mathInt l = n := by
  induction fuel generalizing n ds with
  | zero => omega
  | succ fuel ih =>
    have hd := digitChar_spec (n % 10) (Nat.mod_lt n (by norm_num))
    simp only [Nat.toDigitsCore]
    split_ifs with h0
    · refine ⟨[Nat.digitChar (n % 10)], rfl, by simp, ?_, ?_⟩
      · intro c hc
        rw [List.mem_singleton.1 hc]
        exact hd.1
      · have : mathInt [Nat.digitChar (n % 10)] = digitVal (Nat.digitChar (n % 10)) := by
          simp [mathInt]
        rw [this, hd.2]
        omega
    · obtain ⟨l, hl, -, hdig, hval⟩ := ih (n / 10) (Nat.digitChar (n % 10) :: ds) (by omega)
      refine ⟨l ++ [Nat.digitChar (n % 10)], by rw [hl]; simp, by simp, ?_, ?_⟩
      · intro c hc
        rcases List.mem_append.1 hc with hc | hc
        · exact hdig c hc
        · rw [List.mem_singleton.1 hc]
          exact hd.1
      · rw [mathInt_append_singleton, hval, hd.2]
        omega

theorem repr_spec (n : Nat) :
    (Nat.repr n).data ≠ [] ∧ (∀ c ∈ (Nat.repr n).data, isDigit10 c = true) ∧
      mathInt (Nat.repr n).data = n := by
  obtain ⟨l, hl, hne, hdig, hval⟩ := toDigitsCore_spec (n + 1) n [] (by omega)
  have : (Nat.repr n).data = l := by
    simp only [Nat.repr, Nat.toDigits, hl, List.append_nil, List.asString]
  rw [this]
  exact ⟨hne, hdig, hval⟩

theorem mathInt_zeros (k : Nat) (l : List Char) :
    mathInt (List.replicate k '0' ++ l) = mathInt l := by
  induction k with
  | zero => rfl
  | succ k ih =>
    have h0 : digitVal '0' = 0 := by decide
    simp only [mathInt, List.replicate_succ, List.cons_append, List.foldl_cons, h0, mul_zero,
      add_zero] at ih ⊢
    exact ih

/-- The text of `fixedDigits n`: a non-empty digit string, a point and two
digits, which together are a decimal numeral of `n`. -/
theorem fixedDigits_spec (n : Nat) :
    ∃ ip fp : List Char, (fixedDigits n).data = ip ++ '.' :: fp ∧ ip ≠ [] ∧ fp.length = 2 ∧
      (∀ c ∈ ip ++ fp, isDigit10 c = true) ∧ mathInt (ip ++ fp) = n := by
  obtain ⟨hne, hdig, hval⟩ := repr_spec n
  have key : ∀ m : List Char, 3 ≤ m.length → (∀ c ∈ m, isDigit10 c = true) → mathInt m = n →
      ∃ ip fp : List Char,
        (String.mk (m.take (m.length - 2)) ++ "." ++ String.mk (m.drop (m.length - 2))).data =
          ip ++ '.' :: fp ∧ ip ≠ [] ∧ fp.length = 2 ∧
        (∀ c ∈ ip ++ fp, isDigit10 c = true) ∧ mathInt (ip ++ fp) = n := by
    intro m hlen hd hv
    refine ⟨m.take (m.length - 2), m.drop (m.length - 2), ?_, ?_, ?_, ?_, ?_⟩
    · simp [String.data_append]
    · intro h
      have := congrArg List.length h
      simp only [List.length_take, List.length_nil] at this
      omega
    · simp only [List.length_drop]
      omega
    · rw [List.take_append_drop]
      exact hd
    · rw [List.take_append_drop]
      exact hv
  unfold fixedDigits
  simp only
  split_ifs with hshort
  · apply key
    · simp only [List.length_append, List.length_replicate]
      omega
    · intro c hc
      rcases List.mem_append.1 hc with hc | hc
      · rw [(List.mem_replicate.1 hc).2]
        decide
      · exact hdig c hc
    · rw [mathInt_zeros, hval]
  · exact key _ (by omega) hdig hval

theorem toFixed2_data (v : ℚ) (h21 : |v| < 10 ^ 21) :
    (toFixed2 (Num.fin v)).data =
      (if v < 0 then ['-'] else []) ++ (fixedDigits ⌊|v| * 100 + 1 / 2⌋₊).data := by
  simp only [toFixed2]
  rw [if_neg (not_le.2 h21), String.data_append]
  split_ifs <;> rfl

theorem nan_add (x : Num) : Num.nan.add x = Num.nan := by
  cases x <;> rfl

theorem add_nan (x : Num) : x.add Num.nan = Num.nan := by
  cases x <;> rfl

theorem nan_mul (x : Num) : Num.nan.mul x = Num.nan := by
  cases x <;> rfl

/-- Claim C10, as stated, fails: when the price of an item is `NaN` (its
`data-price` attribute is missing or does not start with a number) the total
is `NaN` and the first frame writes the text `$NaN`, which has no fractional
digits. -/
theorem C10_counterexample :
    recalcSum [{ price := Num.nan, value := "1" }] = Num.nan ∧
    ∃ pg' : Page,
      runFrame (Num.fin 16)
          (init (some "") [{ price := Num.nan, value := "1" }] false none (Num.fin 0)) =
        Except.ok pg' ∧
      pg'.totalEl = some "$NaN" := by
  have h1 : enforceQty "1".data = 1 := by decide
  have hsum : recalcSum [{ price := Num.nan, value := "1" }] = Num.nan := by
    simp only [recalcSum, recalcLoop, recalcItem, h1]
    rfl
  have hf : (init (some "") [{ price := Num.nan, value := "1" }] false none (Num.fin 0)).frames =
      [{ start := Num.fin 0, target := Num.nan, startTime := Num.fin 0 }] := by
    unfold init
    rw [recalc_frames, hsum]
    rfl
  have hv : valueAt { start := Num.fin 0, target := Num.nan, startTime := Num.fin 0 }
      (Num.fin 16) = Num.nan := by
    simp only [valueAt, Num.sub, nan_add, nan_mul, add_nan]
  refine ⟨hsum, ?_⟩
  simp only [runFrame, hf]
  rw [@animate_of_totalEl _ _ _ "" (by unfold init; rw [recalc_totalEl]), hv]
  split_ifs
  · exact ⟨_, rfl, rfl⟩
  · exact ⟨_, rfl, rfl⟩

/-- Claim C10 (amended): a frame writes `$` followed by `toFixed(2)` of the
value it displays; for every finite value `v` with `|v| < 10^21` this is `$`,
a minus sign when `v < 0`, a non-empty string of decimal digits, a point and
exactly two digits, the digits being those of `|v|` rounded to the nearest
hundredth (ties upwards). -/
theorem C10_currency_text (a : Anim) (time : Num) (pg : Page) (txt : String) (v : ℚ)
    (htxt : pg.totalEl = some txt) (hv : valueAt a time = Num.fin v) (h21 : |v| < 10 ^ 21) :
    ∃ (pg' : Page) (ip fp : List Char),
      animate a time pg = Except.ok pg' ∧
      pg'.totalEl = some (String.mk ('$' :: ((if v < 0 then ['-'] else []) ++ ip ++ '.' :: fp))) ∧
      ip ≠ [] ∧ fp.length = 2 ∧ (∀ c ∈ ip ++ fp, isDigit10 c = true) ∧
      mathInt (ip ++ fp) = ⌊|v| * 100 + 1 / 2⌋₊ := by
  obtain ⟨ip, fp, hdata, hne, hlen, hdig, hval⟩ := fixedDigits_spec ⌊|v| * 100 + 1 / 2⌋₊
  have htext : "$" ++ toFixed2 (Num.fin v) =
      String.mk ('$' :: ((if v < 0 then ['-'] else []) ++ ip ++ '.' :: fp)) := by
    apply String.ext
    rw [String.data_append, toFixed2_data v h21, hdata]
    simp
  rw [animate_of_totalEl htxt, hv, htext]
  by_cases hlt : (progressAt a time).lt (Num.fin 1) = true
  · rw [if_pos hlt]
    exact ⟨_, ip, fp, rfl, rfl, hne, hlen, hdig, hval⟩
  · rw [if_neg hlt]
    exact ⟨_, ip, fp, rfl, rfl, hne, hlen, hdig, hval⟩

theorem valueAt_settled :
    valueAt { start := Num.fin 0, target := Num.fin (25 / 2), startTime := Num.fin 0 }
      (Num.fin 250) = Num.fin (25 / 2) := by
  have hp := progressAt_done
    { start := Num.fin 0, target := Num.fin (25 / 2), startTime := Num.fin 0 } 250 0 rfl
    (by norm_num)
  have h0 : round64 (25 / 2) = Num.fin (25 / 2) :=
    round64_ofDyadic 25 (-1) _ (by norm_num) (by norm_num) (by norm_num)
      (by norm_num [abs_of_pos])
  have h1 : round64 (25 / 2 - 0) = Num.fin (25 / 2) := by
    rw [sub_zero]
    exact h0
  have h2 : round64 (25 / 2 * 1) = Num.fin (25 / 2) := by
    rw [mul_one]
    exact h0
  have h3 : round64 (0 + 25 / 2) = Num.fin (25 / 2) := by
    rw [zero_add]
    exact h0
  simp only [valueAt, hp, sub_fin]
  rw [h1, mul_fin, h2, add_fin, h3]

/-- Witness for C10: the value `12.5` is written `$12.50`. -/
theorem C10_currency_text_witness :
    (∃ (pg' : Page) (ip fp : List Char),
      animate { start := Num.fin 0, target := Num.fin (25 / 2), startTime := Num.fin 0 }
          (Num.fin 250)
          { totalEl := some "", inputs := [], form := false, submitBtn := none,
            lastTotal := Num.fin 0, frames := [] } = Except.ok pg' ∧
      pg'.totalEl =
        some (String.mk ('$' :: ((if (25 / 2 : ℚ) < 0 then ['-'] else []) ++ ip ++ '.' :: fp))) ∧
      ip ≠ [] ∧ fp.length = 2 ∧ (∀ c ∈ ip ++ fp, isDigit10 c = true) ∧
      mathInt (ip ++ fp) = ⌊|(25 / 2 : ℚ)| * 100 + 1 / 2⌋₊) ∧
    "$" ++ toFixed2 (Num.fin (25 / 2)) = "$12.50" := by
  refine ⟨C10_currency_text _ _ _ "" (25 / 2) rfl valueAt_settled
    (by rw [abs_of_pos (by norm_num)]; norm_num), ?_⟩
  have hfl : ⌊(25 / 2 : ℚ) * 100 + 1 / 2⌋₊ = 1250 := by
    rw [Nat.floor_eq_iff (by positivity)]
    norm_num
  rw [toFixed2_of_nonneg _ 1250 (by norm_num) (by norm_num) hfl]
  decide

/-! ## The integer reading of the quantity agrees with the binary64 one -/

theorem ulpExp_hundred : ulpExp 100 = -46 := by
  have := ulpExp_eq (q := 100) 6 (by norm_num [abs_of_pos]) (by norm_num [abs_of_pos])
    (by norm_num)
  simpa using this

/-- Rounding keeps a number that is at most `-1` negative. -/
theorem round64_neg_of_le {q : ℚ} (hq : q ≤ -1) :
    round64 q = Num.inf true ∨ ∃ r, round64 q = Num.fin r ∧ r < 0 := by
  have hq0 : q < 0 := by linarith
  rcases round64_cases q with h | ⟨h, -⟩
  · left
    rw [h]
    simp [hq0]
  right
  refine ⟨_, h, ?_⟩
  have hpow : (0 : ℚ) < 2 ^ ulpExp q := by positivity
  have habs : (1 : ℚ) ≤ |q| := by
    rw [abs_of_neg hq0]
    linarith
  have hlog : 0 ≤ Int.log 2 |q| := le_log2 (by linarith) (by simpa using habs)
  have hu : (2 : ℚ) ^ ulpExp q ≤ |q| := by
    have h1 : (2 : ℚ) ^ ulpExp q ≤ 2 ^ Int.log 2 |q| := by
      apply zpow_le_zpow_right₀ (by norm_num)
      unfold ulpExp
      omega
    exact le_trans h1 (zpow_log2_le (by linarith))
  have hx : q / 2 ^ ulpExp q ≤ ((-1 : ℤ) : ℚ) := by
    rw [div_le_iff₀ hpow]
    rw [abs_of_neg hq0] at hu
    push_cast
    linarith
  have hn : ((roundHalfEven (q / 2 ^ ulpExp q) : ℤ) : ℚ) ≤ ((-1 : ℤ) : ℚ) := by
    exact_mod_cast roundHalfEven_le hx
  have : ((roundHalfEven (q / 2 ^ ulpExp q) : ℤ) : ℚ) * 2 ^ ulpExp q ≤ (-1) * 2 ^ ulpExp q :=
    mul_le_mul_of_nonneg_right (by simpa using hn) hpow.le
  linarith

/-- The quantity computed on binary64 numbers is the integer quantity: rounding
the integer `parseInt` reads changes neither the comparisons with `0` and `99`
nor a value in `[0, 99]`. -/
theorem enforceQtyNum_eq (s : List Char) : enforceQtyNum s = Num.fin (enforceQty s) := by
  unfold enforceQtyNum parseIntNum
  cases hp : parseInt10 s with
  | none =>
    rw [enforceQty_none hp]
    simp [Num.lt]
  | some n =>
    rw [enforceQty_some hp]
    simp only
    by_cases hneg : n < 0
    · rw [if_pos hneg]
      have hq : (n : ℚ) ≤ -1 := by
        have : n ≤ -1 := by omega
        exact_mod_cast this
      rcases round64_neg_of_le hq with h | ⟨r, h, hr⟩
      · rw [h]
        simp [Num.lt]
      · rw [h]
        have hr0 : r ≠ 0 := ne_of_lt hr
        have h99 : ¬ ((99 : ℚ) < 0) := by norm_num
        simp [Num.lt, hr, hr0, h99]
    · rw [if_neg hneg]
      by_cases hbig : 99 < n
      · rw [if_pos hbig]
        have hq : (100 : ℚ) ≤ (n : ℚ) := by
          have : 100 ≤ n := by omega
          exact_mod_cast this
        rcases round64_ge (q := (n : ℚ)) (c := 100) (100 * 2 ^ 46) (by norm_num)
          (by rw [ulpExp_hundred]; norm_num) hq with h | ⟨r, h, hr⟩
        · rw [h]
          simp [Num.lt]
        · rw [h]
          have hr0 : r ≠ 0 := by
            intro h0
            rw [h0] at hr
            norm_num at hr
          have hr1 : ¬ (r < 0) := by
            intro h0
            linarith
          have hr2 : (99 : ℚ) < r := by linarith
          simp [Num.lt, hr0, hr1, hr2]
      · rw [if_neg hbig]
        have hn : |n| < 2 ^ 53 := by
          rw [abs_lt]
          constructor <;> omega
        rw [round64_intCast n hn]
        have h0 : ¬ ((n : ℚ) < 0) := by
          have : (0 : ℚ) ≤ (n : ℚ) := by exact_mod_cast not_lt.1 hneg
          exact not_lt.2 this
        have h99 : ¬ ((99 : ℚ) < (n : ℚ)) := by
          have : (n : ℚ) ≤ 99 := by exact_mod_cast not_lt.1 hbig
          exact not_lt.2 this
        by_cases hz : n = 0
        · subst hz
          simp [Num.lt]
        · have hz' : (n : ℚ) ≠ 0 := by exact_mod_cast hz
          simp [Num.lt, hz', h0, h99]

/-! ## The settled total along a run -/

/-- One event on a page with a total display element: it does not throw, the
element stays, and `lastTotal` becomes the target of the animation the event
completes, or stays as it is when the event completes none. -/
theorem step_lastTotal (e : Event) (pg : Page) (txt : String) (h : pg.totalEl = some txt) :
    ∃ (pg' : Page) (txt' : String), step e pg = Except.ok pg' ∧ pg'.totalEl = some txt' ∧
      pg'.lastTotal = (completedBy e pg).getD pg.lastTotal := by
  cases e with
  | edit i v => exact ⟨_, txt, rfl, h, rfl⟩
  | recalc now =>
    refine ⟨_, txt, rfl, ?_, ?_⟩
    · rw [recalc_totalEl, h]
    · rw [recalc_lastTotal]
      rfl
  | frame time =>
    cases hf : pg.frames with
    | nil =>
      refine ⟨pg, txt, ?_, h, ?_⟩
      · simp only [step, runFrame, hf]
      · simp only [completedBy, hf, Option.getD_none]
    | cons a rest =>
      have hstep : step (Event.frame time) pg = animate a time { pg with frames := rest } := by
        simp only [step, runFrame, hf]
      rw [hstep, @animate_of_totalEl a time { pg with frames := rest } txt h]
      by_cases hlt : (progressAt a time).lt (Num.fin 1) = true
      · rw [if_pos hlt]
        refine ⟨_, _, rfl, rfl, ?_⟩
        simp only [completedBy, hf, hlt, if_true, Option.getD_none]
      · rw [if_neg hlt]
        refine ⟨_, _, rfl, rfl, ?_⟩
        simp [completedBy, hf, hlt]

/-- Along every run from a page with a total display element no event throws,
and `lastTotal` is the target of the animation that completed last (the
initial `lastTotal` if none did). -/
theorem run_lastTotal (es : List Event) (pg : Page) (txt : String) (h : pg.totalEl = some txt) :
    ∃ pg' : Page, run es pg = Except.ok pg' ∧
      pg'.lastTotal = lastCompleted es pg pg.lastTotal := by
  induction es generalizing pg txt with
  | nil => exact ⟨pg, rfl, rfl⟩
  | cons e es ih =>
    obtain ⟨pg1, txt1, hstep, htxt1, hlast⟩ := step_lastTotal e pg txt h
    obtain ⟨pg', hrun, hlast'⟩ := ih pg1 txt1 htxt1
    refine ⟨pg', ?_, ?_⟩
    · simp only [run, hstep]
      exact hrun
    · simp only [lastCompleted, hstep]
      rw [hlast', hlast]

theorem init_lastTotal (totalEl : Option String) (inputs : List Item) (form : Bool)
    (formSubmit : Option Bool) (now : Num) :
    (init totalEl inputs form formSubmit now).lastTotal = Num.fin 0 := by
  unfold init
  rw [recalc_lastTotal]

theorem init_totalEl (totalEl : Option String) (inputs : List Item) (form : Bool)
    (formSubmit : Option Bool) (now : Num) :
    (init totalEl inputs form formSubmit now).totalEl = totalEl := by
  unfold init
  rw [recalc_totalEl]

/-- Claim C9 (amended): whatever edits, recalculations and frames follow the
initialisation of a page with a total display element, a new call of
`animateTotal` (from `recalc` or directly) captures as start value the target
of the animation that completed last, `0` if none has completed: only a frame
that completes an animation changes `lastTotal`, so while a prior animation is
in flight the captured start is not the value that animation displayed last. -/
theorem C9_start_is_last_settled (txt : String) (inputs : List Item) (form : Bool)
    (formSubmit : Option Bool) (now0 : Num) (es : List Event) :
    ∃ pg : Page,
      run es (init (some txt) inputs form formSubmit now0) = Except.ok pg ∧
      pg.lastTotal =
        lastCompleted es (init (some txt) inputs form formSubmit now0) (Num.fin 0) ∧
      (∀ newTotal now : Num,
        (animateTotal newTotal now pg).frames =
          pg.frames ++
            [{ start := lastCompleted es (init (some txt) inputs form formSubmit now0) (Num.fin 0),
               target := newTotal, startTime := now }]) ∧
      (∀ now : Num,
        (recalc now pg).frames =
          pg.frames ++
            [{ start := lastCompleted es (init (some txt) inputs form formSubmit now0) (Num.fin 0),
               target := recalcSum pg.inputs, startTime := now }]) := by
  obtain ⟨pg, hrun, hlast⟩ := run_lastTotal es (init (some txt) inputs form formSubmit now0) txt
    (init_totalEl _ _ _ _ _)
  rw [init_lastTotal] at hlast
  refine ⟨pg, hrun, hlast, ?_, ?_⟩
  · intro newTotal now
    rw [animateTotal_frames, hlast]
  · intro now
    rw [recalc_frames, hlast]

theorem init_example :
    init (some "") [{ price := Num.fin 5, value := "2" }] false none (Num.fin 0) =
      { totalEl := some "", inputs := [{ price := Num.fin 5, value := "2" }], form := false,
        submitBtn := none, lastTotal := Num.fin 0,
        frames := [{ start := Num.fin 0, target := Num.fin 10, startTime := Num.fin 0 }] } := by
  have h2 : enforceQty "2".data = 2 := by decide
  have hs : intToString 2 = "2" := by decide
  have hloop : recalcLoop [{ price := Num.fin 5, value := "2" }] (Num.fin 0) =
      ([{ price := Num.fin 5, value := "2" }], Num.fin 10) := by
    simp only [recalcLoop, recalcItem, h2, hs, mul_fin, Int.cast_ofNat]
    rw [round64_ofInt 10 (5 * 2) (by norm_num) (by norm_num), add_fin,
      round64_ofInt 10 (0 + 5 * 2) (by norm_num) (by norm_num)]
    norm_num
  simp only [init, recalc, animateTotal, hloop, if_false, Bool.false_eq_true, List.nil_append]

theorem lt_one_one : (Num.fin 1).lt (Num.fin 1) = false := by
  simp [Num.lt]

/-- Witness for C9: after the initial total `10` (price `5.00`, quantity `2`),
the frame at time `125` leaves the animation in flight and the settled total is
still `0`; the frame at time `250` completes it and the settled total is
`10`. -/
theorem C9_start_is_last_settled_witness :
    (∃ pg : Page,
      run [Event.frame (Num.fin 125)]
          (init (some "") [{ price := Num.fin 5, value := "2" }] false none (Num.fin 0)) =
        Except.ok pg ∧
      ∀ newTotal now : Num,
        (animateTotal newTotal now pg).frames =
          pg.frames ++ [{ start := Num.fin 0, target := newTotal, startTime := now }]) ∧
    (∃ pg : Page,
      run [Event.frame (Num.fin 250)]
          (init (some "") [{ price := Num.fin 5, value := "2" }] false none (Num.fin 0)) =
        Except.ok pg ∧
      ∀ newTotal now : Num,
        (animateTotal newTotal now pg).frames =
          pg.frames ++ [{ start := Num.fin 10, target := newTotal, startTime := now }]) := by
  have hdone := progressAt_done
    { start := Num.fin 0, target := Num.fin 10, startTime := Num.fin 0 } 250 0 rfl (by norm_num)
  have e1 : lastCompleted [Event.frame (Num.fin 125)]
      (init (some "") [{ price := Num.fin 5, value := "2" }] false none (Num.fin 0))
      (Num.fin 0) = Num.fin 0 := by
    rw [init_example]
    simp only [lastCompleted, step, runFrame, completedBy]
    rw [animate_of_totalEl rfl, progressAt_halfway, if_pos lt_halfway, if_pos lt_halfway]
    rfl
  have e2 : lastCompleted [Event.frame (Num.fin 250)]
      (init (some "") [{ price := Num.fin 5, value := "2" }] false none (Num.fin 0))
      (Num.fin 0) = Num.fin 10 := by
    rw [init_example]
    simp only [lastCompleted, step, runFrame, completedBy]
    rw [animate_of_totalEl rfl, hdone, lt_one_one]
    rfl
  obtain ⟨pg1, hr1, -, ha1, -⟩ := C9_start_is_last_settled "" [{ price := Num.fin 5, value := "2" }]
    false none (Num.fin 0) [Event.frame (Num.fin 125)]
  obtain ⟨pg2, hr2, -, ha2, -⟩ := C9_start_is_last_settled "" [{ price := Num.fin 5, value := "2" }]
    false none (Num.fin 0) [Event.frame (Num.fin 250)]
  rw [e1] at ha1
  rw [e2] at ha2
  exact ⟨⟨pg1, hr1, ha1⟩, ⟨pg2, hr2, ha2⟩⟩

end CafeBilling
